import Mathlib

/-!
Verification of the attendance-derivation core of the Attendance-system
repository (Electron + better-sqlite3 + React).

JavaScript strings are modelled as lists of UTF-16 code units (`JStr`);
all relevant source functions are translated into executable Lean
definitions over this representation.  JavaScript `null`/`NaN` results of
numeric parsing are folded into `Option.none`: in every use site of the
modelled code a `NaN` value flows into a comparison (`>` etc.) that is
false for `NaN`, which coincides with the `none` branch of the model.
-/

namespace Attendance

/-- A JavaScript string, as its list of UTF-16 code units. -/
abbrev JStr := List Nat

/-- Whitespace code units relevant to `String.prototype.trim` / `\s`
(space, tab, LF, VT, FF, CR). -/
def isWS (c : Nat) : Bool :=
  c = 32 || c = 9 || c = 10 || c = 11 || c = 12 || c = 13

/-- Model of `str.trim()`: drop leading and trailing whitespace. -/
def jsTrim (s : JStr) : JStr :=
  ((s.dropWhile isWS).reverse.dropWhile isWS).reverse

/-- Model of lexicographic string comparison `a < b` on code units
(the ordering used by the default `Array.prototype.sort` comparator). -/
def jsLt : JStr → JStr → Bool
  | [], [] => false
  | [], _ :: _ => true
  | _ :: _, [] => false
  | a :: as, b :: bs => if a < b then true else if b < a then false else jsLt as bs

/-- Stable insertion placing `x` before the first element `y` with
`¬ (y < x)`; models one step of an ascending stable comparison sort. -/
def insertSorted (x : JStr) : List JStr → List JStr
  | [] => [x]
  | y :: ys => if jsLt y x then y :: insertSorted x ys else x :: y :: ys

/-- Model of `Array.prototype.sort()` with the default string comparator:
a stable ascending sort by `jsLt`. -/
def jsSort : List JStr → List JStr
  | [] => []
  | x :: xs => insertSorted x (jsSort xs)

/-- Model of `str.split(", ")` (code units 44, 32): split at each
left-most occurrence of the two-character separator. -/
def splitCS : JStr → List JStr
  | [] => [[]]
  | [c] => [[c]]
  | c :: d :: rest =>
    if c = 44 ∧ d = 32 then [] :: splitCS (d :: rest).tail
    else
      match splitCS (d :: rest) with
      | [] => [[c]]
      | h :: t => (c :: h) :: t

/-- Model of `str.split(":")` (code unit 58). -/
def splitColon : JStr → List JStr
  | [] => [[]]
  | c :: rest =>
    if c = 58 then [] :: splitColon rest
    else
      match splitColon rest with
      | [] => [[c]]
      | h :: t => (c :: h) :: t

/-- Model of `str.split(",")` (code unit 44). -/
def splitComma : JStr → List JStr
  | [] => [[]]
  | c :: rest =>
    if c = 44 then [] :: splitComma rest
    else
      match splitComma rest with
      | [] => [[c]]
      | h :: t => (c :: h) :: t

/-- `[a₁, …, aₙ] ↦ a₁ ++ sep ++ a₂ ++ … ++ sep ++ aₙ`, the model of
`Array.prototype.join`. -/
def joinSep (sep : JStr) : List JStr → JStr
  | [] => []
  | [a] => a
  | a :: b :: rest => a ++ sep ++ joinSep sep (b :: rest)

/-- `join(", ")` as used for the `daily_attendance.punches` column. -/
def joinCS (l : List JStr) : JStr := joinSep [44, 32] l

/-- `join(",")` as used for the `daily_attendance.upload_ids` column. -/
def joinComma (l : List JStr) : JStr := joinSep [44] l

/-- Decimal digit code unit. -/
def isDigitCU (c : Nat) : Bool := 48 ≤ c ∧ c ≤ 57

/-- Accumulate the value of a maximal leading digit run
(the digit-consuming loop of `parseInt`). -/
def takeDigitsVal : JStr → Nat → Nat
  | [], acc => acc
  | c :: rest, acc =>
    if isDigitCU c then takeDigitsVal rest (acc * 10 + (c - 48)) else acc

/-- Model of `parseInt(s, 10)` on the strings that occur here
(no sign, no leading whitespace): the value of the leading digit run,
`none` for `NaN` (no leading digit, or a missing argument). -/
def jsParseIntNat : JStr → Option Nat
  | [] => none
  | c :: rest =>
    if isDigitCU c then some (takeDigitsVal (c :: rest) 0) else none

/-- Model of `Number(s)` restricted to the all-digit strings produced by
time normalization; `none` models `NaN`. -/
def jsNumberNat (s : JStr) : Option Nat :=
  if s ≠ [] ∧ s.all isDigitCU then some (takeDigitsVal s 0) else none

/-- The two-digit zero-padded decimal rendering of `n < 100`
(`String(n).padStart(2, "0")`). -/
def twoDigit (n : Nat) : JStr := [48 + n / 10, 48 + n % 10]

/-- A canonical punch time as stored by the system: hours, minutes and an
optional seconds field (`HH:MM` or `HH:MM:SS`). -/
structure JTime where
  hh : Nat
  mm : Nat
  ss : Option Nat
deriving DecidableEq

/-- Validity of a canonical time: field ranges as enforced by
`normalizeTime`. -/
def JTime.Valid (t : JTime) : Prop :=
  t.hh < 24 ∧ t.mm < 60 ∧ ∀ s ∈ t.ss, s < 60

/-- Render a canonical time to its stored string form. -/
def JTime.render (t : JTime) : JStr :=
  twoDigit t.hh ++ (58 :: (twoDigit t.mm ++
    (match t.ss with
     | none => []
     | some s => 58 :: twoDigit s)))

/-- The instant of the time in seconds since midnight (absent seconds
count as zero). -/
def JTime.instant (t : JTime) : Nat :=
  t.hh * 3600 + t.mm * 60 + t.ss.getD 0

/-- Whole minutes since midnight, as computed by the report-side
`timeToMinutes` helpers (`h * 60 + m`, seconds ignored). -/
def JTime.mins (t : JTime) : Nat := t.hh * 60 + t.mm

/-- `timeToMinutes` as defined locally in the report generators
(`monthlyReport.js` / `monthlyGridReport.js`):
split on `":"`, `parseInt` the first two parts, return `h * 60 + m`.
`none` covers the `null` (empty input) and `NaN` (missing minutes part)
outcomes, which behave identically in every caller. -/
def timeToMinutes012 (time : JStr) : Option Nat :=
  if time = [] then none
  else
    match (splitColon time)[0]?, (splitColon time)[1]? with
    | some p0, some p1 =>
      match jsParseIntNat p0, jsParseIntNat p1 with
      | some h, some m => some (h * 60 + m)
      | _, _ => none
    | _, _ => none

/-- A calendar date (proleptic Gregorian), the model of the
`YYYY-MM-DD` strings handled by the system. -/
structure CivilDate where
  year : Int
  month : Nat
  day : Nat
deriving DecidableEq

/-- Days since 1970-01-01 of a civil date (standard civil-calendar
algorithm); models the UTC interpretation that `new Date("YYYY-MM-DD")`
gives to ISO date-only strings. -/
def daysFromCivil (dt : CivilDate) : Int :=
  let y : Int := if dt.month ≤ 2 then dt.year - 1 else dt.year
  let era : Int := (if 0 ≤ y then y else y - 399) / 400
  let yoe : Int := y - era * 400
  let mp : Int := ((dt.month : Int) + 9) % 12
  let doy : Int := (153 * mp + 2) / 5 + (dt.day : Int) - 1
  let doe : Int := yoe * 365 + yoe / 4 - yoe / 100 + doy
  era * 146097 + doe - 719468

/-- Model of `new Date(dateStr).getDay()` for the ISO date strings used
throughout: 0 = Sunday … 6 = Saturday (1970-01-01 is a Thursday = 4). -/
def jsGetDay (dt : CivilDate) : Int :=
  (daysFromCivil dt + 4) % 7

/-- `getDay() === 0`: the Sunday test of the classifiers. -/
def isSunday (dt : CivilDate) : Bool := jsGetDay dt = 0

/-- The status codes returned by `getDayDetails`, one constructor per
source string: `P` FullDay, `HD` HalfDay, `A` Absent, `WO` WeeklyOff,
`WW` WorkedOff (Sunday worked). -/
inductive DayCode
  | P
  | HD
  | A
  | WO
  | WW
deriving DecidableEq

/-- The result record of `getDayDetails`:
`{ status, firstIn, lastOut, workedMinutes }`. -/
structure DayDetails where
  status : DayCode
  firstIn : Option JStr
  lastOut : Option JStr
  workedMinutes : Nat
deriving DecidableEq

/-- `getDayDetails(punches, dateStr)` from `monthlyGridReport.js`:
classify one employee-day from its punches string (nullable) and date. -/
def getDayDetails (punches : Option JStr) (date : CivilDate) : DayDetails :=
  let isSun := isSunday date
  let emptyRes : DayDetails :=
    ⟨if isSun then .WO else .A, none, none, 0⟩
  match punches with
  | none => emptyRes
  | some p =>
    if jsTrim p = [] then emptyRes
    else
      match jsSort ((splitCS p).map jsTrim) with
      | [] => emptyRes
      | t0 :: rest =>
        let firstIn := t0
        let lastOut := (t0 :: rest).getLast (List.cons_ne_nil t0 rest)
        match timeToMinutes012 firstIn, timeToMinutes012 lastOut with
        | some inMins, some outMins =>
          if inMins < outMins then
            let workedMins := outMins - inMins
            let status : DayCode :=
              if isSun then (if 300 ≤ workedMins then .WW else .WO)
              else if 480 ≤ workedMins then .P
              else if 300 ≤ workedMins then .HD
              else .A
            ⟨status, some firstIn, some lastOut, workedMins⟩
          else ⟨if isSun then .WO else .A, some firstIn, some lastOut, 0⟩
        | _, _ => ⟨if isSun then .WO else .A, some firstIn, some lastOut, 0⟩

/-! ### `electron/dateTimeUtils.js` (current revision, with seconds support) -/

/-- The anchored pattern `^(\d{1,2}):(\d{2})(?::(\d{2}))?$` of
`normalizeTime`: hour (1-2 digits), minutes (2 digits), optional seconds
(2 digits), separated by `":"` (code unit 58). -/
def timePat : JStr → Option (Nat × Nat × Option Nat)
  | [a, 58, c, d] =>
    if isDigitCU a && isDigitCU c && isDigitCU d then
      some (a - 48, (c - 48) * 10 + (d - 48), none)
    else none
  | [a, b, 58, c, d] =>
    if isDigitCU a && isDigitCU b && isDigitCU c && isDigitCU d then
      some ((a - 48) * 10 + (b - 48), (c - 48) * 10 + (d - 48), none)
    else none
  | [a, 58, c, d, 58, e, f] =>
    if isDigitCU a && isDigitCU c && isDigitCU d && isDigitCU e && isDigitCU f then
      some (a - 48, (c - 48) * 10 + (d - 48), some ((e - 48) * 10 + (f - 48)))
    else none
  | [a, b, 58, c, d, 58, e, f] =>
    if isDigitCU a && isDigitCU b && isDigitCU c && isDigitCU d && isDigitCU e && isDigitCU f then
      some ((a - 48) * 10 + (b - 48), (c - 48) * 10 + (d - 48), some ((e - 48) * 10 + (f - 48)))
    else none
  | _ => none

/-- `normalizeTime(timeStr)` from `dateTimeUtils.js`: trim, replace
`"."` (46) by `":"` (58), match the time pattern, range-check
(hour ≤ 23, minute ≤ 59, seconds ≤ 59 when present) and re-render
zero-padded.  `none` models the falsy-input and `null` returns. -/
def normalizeTime (s : JStr) : Option JStr :=
  if s = [] then none
  else
    match timePat ((jsTrim s).map (fun c => if c = 46 then 58 else c)) with
    | none => none
    | some (h, m, so) =>
      if h ≤ 23 ∧ m ≤ 59 ∧ so.getD 0 ≤ 59 then
        some (JTime.render ⟨h, m, so⟩)
      else none

/-- `timeToMinutes(time)` from `dateTimeUtils.js`: normalize, split on
`":"`, map `Number`, and return `h * 60 + m + s / 60` (fractional
minutes preserved, `s` defaulting to 0 when absent). -/
def timeToMinutesUtil (time : JStr) : Option ℚ :=
  match normalizeTime time with
  | none => none
  | some n =>
    match splitColon n with
    | p0 :: p1 :: rest =>
      match jsNumberNat p0, jsNumberNat p1 with
      | some h, some m =>
        match rest with
        | [] => some ((h : ℚ) * 60 + (m : ℚ))
        | p2 :: _ =>
          match jsNumberNat p2 with
          | some sec => some ((h : ℚ) * 60 + (m : ℚ) + (sec : ℚ) / 60)
          | none => none
      | _, _ => none
    | _ => none

/-- Model of `str.split("-")` (code unit 45). -/
def splitDash : JStr → List JStr
  | [] => [[]]
  | c :: rest =>
    if c = 45 then [] :: splitDash rest
    else
      match splitDash rest with
      | [] => [[c]]
      | h :: t => (c :: h) :: t

/-- `c.toLowerCase()` for one ASCII code unit. -/
def toLowerCU (c : Nat) : Nat := if 65 ≤ c ∧ c ≤ 90 then c + 32 else c

/-- `str.padStart(2, "0")`. -/
def padStart2 (s : JStr) : JStr :=
  if s.length < 2 then List.replicate (2 - s.length) 48 ++ s else s

/-- The month-name table of `normalizeDate` (keys `jan` … `dec` as code
units, values the two-digit month strings). -/
def monthPairs : List (JStr × JStr) :=
  [([106, 97, 110], [48, 49]),  -- jan
   ([102, 101, 98], [48, 50]),  -- feb
   ([109, 97, 114], [48, 51]),  -- mar
   ([97, 112, 114], [48, 52]),  -- apr
   ([109, 97, 121], [48, 53]),  -- may
   ([106, 117, 110], [48, 54]), -- jun
   ([106, 117, 108], [48, 55]), -- jul
   ([97, 117, 103], [48, 56]),  -- aug
   ([115, 101, 112], [48, 57]), -- sep
   ([111, 99, 116], [49, 48]),  -- oct
   ([110, 111, 118], [49, 49]), -- nov
   ([100, 101, 99], [49, 50])]  -- dec

/-- Month-name lookup on the lowercased month field. -/
def monthLookup (m : JStr) : Option JStr :=
  (monthPairs.find? (fun p => p.1 = m)).map (fun p => p.2)

/-- Model of `!isNaN(str)` on the strings relevant to dates:
`Number(str)` is not `NaN` when the trimmed string is empty (JS coerces
it to 0) or is a signed decimal literal. -/
def isNumericJs (s : JStr) : Bool :=
  let t := jsTrim s
  let t1 := match t with
    | c :: rest => if c = 43 ∨ c = 45 then rest else t
    | [] => t
  let ip := t1.takeWhile isDigitCU
  let r1 := t1.dropWhile isDigitCU
  t = [] ||
    (match r1 with
     | [] => !ip.isEmpty
     | 46 :: r2 => r2.all isDigitCU && (!ip.isEmpty || !r2.isEmpty)
     | _ => false)

/-- `normalizeDate(dateStr)` from `dateTimeUtils.js`: replace `/` by
`-`, split on `-`; pass `YYYY-…` strings through unchanged; otherwise
interpret `DD-MM(-or-MMM)-YY(YY)`, expand two-digit years with a `20`
prefix, resolve month names, zero-pad, and require numeric fields. -/
def normalizeDate (s : JStr) : Option JStr :=
  if s = [] then none
  else
    let n := s.map (fun c => if c = 47 then 45 else c)
    match splitDash n with
    | [p0, p1, p2] =>
      if p0.length = 4 ∧ isNumericJs p1 then some n
      else if p0 = [] ∨ p1 = [] ∨ p2 = [] then none
      else
        let year := if p2.length = 2 then 50 :: 48 :: p2 else p2
        let month :=
          match monthLookup (p1.map toLowerCU) with
          | some mm => mm
          | none => padStart2 p1
        let day := padStart2 p0
        if isNumericJs year && isNumericJs month && isNumericJs day then
          some (year ++ 45 :: month ++ 45 :: day)
        else none
    | _ => none

/-! ### `electron/utils/validator.js` -/

/-- The employee-id character set: alphanumeric and hyphen. -/
def isIdCharCU (c : Nat) : Bool :=
  isDigitCU c || (65 ≤ c && c ≤ 90) || (97 ≤ c && c ≤ 122) || c = 45

/-- `validateEmployeeId(employeeId)`: requires a non-empty string whose
trimmed form is non-empty, at most 20 characters, and uses only the id
character set; returns the trimmed value (`none` models the
`{ valid: false }` results, including a missing argument). -/
def validateEmployeeId : Option JStr → Option JStr
  | none => none
  | some s =>
    if s = [] then none
    else
      let t := jsTrim s
      if t = [] then none
      else if 20 < t.length then none
      else if t.all isIdCharCU then some t else none

/-! ### Database model

The four tables of `db.js`: `employees (id PRIMARY KEY, name)`,
`attendance_logs (employee_id, date, time, upload_id,
UNIQUE(employee_id, date, time))`, `uploads (id PRIMARY KEY, filename,
records_inserted, records_skipped, records_empty)` and
`daily_attendance (employee_id, date, punches, upload_ids,
UNIQUE(employee_id, date))`. -/

/-- One `attendance_logs` row. -/
structure LogRow where
  empId : JStr
  date : JStr
  time : JStr
  uploadId : Option JStr
deriving DecidableEq

/-- One `uploads` row. -/
structure UploadRow where
  uid : JStr
  filename : JStr
  recordsInserted : Nat
  recordsSkipped : Nat
  recordsEmpty : Nat
deriving DecidableEq

/-- One `daily_attendance` row (`punches` and `upload_ids` are the
delimited cache strings). -/
structure DailyRow where
  empId : JStr
  date : JStr
  punches : JStr
  uploadIds : JStr
deriving DecidableEq

/-- The whole store. -/
structure DBState where
  employees : List (JStr × JStr)
  logs : List LogRow
  uploads : List UploadRow
  daily : List DailyRow
deriving DecidableEq

/-- Whether a punch with this `(employee_id, date, time)` key exists. -/
def hasLog (logs : List LogRow) (e d t : JStr) : Bool :=
  logs.any (fun r => r.empId = e && r.date = d && r.time = t)

/-- `INSERT OR IGNORE INTO attendance_logs`: on a duplicate
`(employee_id, date, time)` key the existing row (including its
`upload_id`) is untouched and `changes = 0` (second component `false`). -/
def insertLogOrIgnore (st : DBState) (e d t : JStr) (u : Option JStr) :
    DBState × Bool :=
  if hasLog st.logs e d t then (st, false)
  else ({ st with logs := st.logs ++ [⟨e, d, t, u⟩] }, true)

/-- `INSERT OR IGNORE INTO employees`. -/
def insertEmployeeOrIgnore (st : DBState) (i nm : JStr) : DBState :=
  if st.employees.any (fun p => p.1 = i) then st
  else { st with employees := st.employees ++ [(i, nm)] }

/-- Insert the row's punch times one by one, counting the rows actually
inserted (`insertedForRecord` in the source). -/
def insertLogs (e d u : JStr) : DBState → List JStr → DBState × Nat
  | st, [] => (st, 0)
  | st, t :: ts =>
    let p := insertLogOrIgnore st e d t (some u)
    let q := insertLogs e d u p.1 ts
    (q.1, (if p.2 then 1 else 0) + q.2)

/-- `daily_attendance` lookup by its unique `(employee_id, date)` key. -/
def lookupDaily (st : DBState) (e d : JStr) : Option DailyRow :=
  st.daily.find? (fun r => r.empId = e && r.date = d)

/-- The `INSERT … ON CONFLICT(employee_id, date) DO UPDATE` upsert used
by both the ingestion aggregation phase and the deletion reconciler. -/
def upsertDaily (st : DBState) (e d p u : JStr) : DBState :=
  if st.daily.any (fun r => r.empId = e && r.date = d) then
    { st with daily := st.daily.map (fun r =>
        if r.empId = e && r.date = d then { r with punches := p, uploadIds := u } else r) }
  else { st with daily := st.daily ++ [⟨e, d, p, u⟩] }

/-- `DELETE FROM daily_attendance WHERE employee_id = ? AND date = ?`. -/
def deleteDaily (st : DBState) (e d : JStr) : DBState :=
  { st with daily := st.daily.filter (fun r => !(r.empId = e && r.date = d)) }

/-- Insertion step of the `ORDER BY time ASC` model. -/
def insertLogSorted (x : LogRow) : List LogRow → List LogRow
  | [] => [x]
  | y :: ys => if jsLt y.time x.time then y :: insertLogSorted x ys else x :: y :: ys

/-- `ORDER BY time ASC` (ties cannot arise for one employee-day because
of the `UNIQUE(employee_id, date, time)` constraint). -/
def sortLogsByTime : List LogRow → List LogRow
  | [] => []
  | x :: xs => insertLogSorted x (sortLogsByTime xs)

/-- `SELECT time, upload_id FROM attendance_logs WHERE employee_id = ?
AND date = ? ORDER BY time ASC`. -/
def dayLogs (logs : List LogRow) (e d : JStr) : List LogRow :=
  sortLogsByTime (logs.filter (fun r => r.empId = e && r.date = d))

/-- `logs.map(l => l.upload_id).filter(Boolean)`. -/
def presentUploadIds (logs : List LogRow) : List JStr :=
  logs.filterMap (fun r =>
    match r.uploadId with
    | some u => if u = [] then none else some u
    | none => none)

/-- `new Set(…)` as a first-occurrence deduplication. -/
def dedupFirst {α : Type} [DecidableEq α] (seen : List α) : List α → List α
  | [] => []
  | x :: xs => if x ∈ seen then dedupFirst seen xs else x :: dedupFirst (x :: seen) xs

/-- The rebuilt `punches` column: day punches joined with `", "`. -/
def rebuildPunchesStr (logs : List LogRow) : JStr :=
  joinCS (logs.map (fun r => r.time))

/-- The rebuilt `upload_ids` column: distinct present upload ids joined
with `","`. -/
def rebuildUploadIdsStr (logs : List LogRow) : JStr :=
  joinComma (dedupFirst [] (presentUploadIds logs))

/-! ### Ingestion (`electron/backend/ingest.js`, upload-aware revision) -/

/-- Delimiters of the punch tokenizer `split(/[,;\n|\s]+/)`: comma,
semicolon, pipe and whitespace. -/
def isDelimCU (c : Nat) : Bool := c = 44 || c = 59 || c = 124 || isWS c

/-- Run accumulator for `tokensOf`. -/
def tokensOfAux (acc : JStr) : JStr → List JStr
  | [] => if acc = [] then [] else [acc.reverse]
  | c :: rest =>
    if isDelimCU c then
      if acc = [] then tokensOfAux [] rest else acc.reverse :: tokensOfAux [] rest
    else tokensOfAux (c :: acc) rest

/-- The maximal runs of non-delimiter characters: the observable result
of `raw.split(/[,;\n|\s]+/)` followed by the source's per-token trim and
skip of empty tokens (a regex token can contain no delimiter, hence no
whitespace, so its trim is the identity and only boundary empty strings
are dropped). -/
def tokensOf (s : JStr) : List JStr := tokensOfAux [] s

/-- The normalized punch times surviving from a raw `PunchRecords` cell:
tokens that fail `normalizeTime` are dropped individually.  A missing or
empty (falsy) cell yields no tokens. -/
def punchEntries (raw : Option JStr) : List JStr :=
  match raw with
  | none => []
  | some r => (tokensOf r).filterMap normalizeTime

/-- One parsed CSV row after column-alias resolution (`Employee Code`/
`UserID`/…, `AttendanceDate`/`Date`/…, `PunchRecords`/`Time`/…);
`none` models a missing or falsy field. -/
structure CsvRow where
  userId : Option JStr
  date : Option JStr
  punchRecords : Option JStr
deriving DecidableEq

/-- The mutable state threaded through the ingestion row loop: the
store, the affected `(employeeId, date)` set, and the three counters. -/
structure IngestAcc where
  st : DBState
  affected : List (JStr × JStr)
  inserted : Nat
  skipped : Nat
  empty : Nat
deriving DecidableEq

/-- `affectedDays.add(``empId|date``)` (a JS `Set`, insertion-ordered). -/
def addAffected (l : List (JStr × JStr)) (x : JStr × JStr) : List (JStr × JStr) :=
  if x ∈ l then l else l ++ [x]

/-- `Employee ` (the placeholder-name literal as code units). -/
def employeeNameLit : JStr := [69, 109, 112, 108, 111, 121, 101, 101, 32]

/-- The body of the ingestion row loop (`ingest.js` lines 125-202):
validate the employee id, normalize the date, auto-provision the
employee, tokenize and normalize the punches, insert the surviving
punches with `INSERT OR IGNORE`, and update the counters and the
affected-day set. -/
def processRow (uploadId : JStr) (acc : IngestAcc) (r : CsvRow) : IngestAcc :=
  match validateEmployeeId r.userId with
  | none => { acc with skipped := acc.skipped + 1 }
  | some empId =>
    match r.date.bind normalizeDate with
    | none => { acc with skipped := acc.skipped + 1 }
    | some date =>
      let st1 := insertEmployeeOrIgnore acc.st empId (employeeNameLit ++ empId)
      let entries := punchEntries r.punchRecords
      if entries ≠ [] then
        let p := insertLogs empId date uploadId st1 entries
        if 0 < p.2 then
          { st := p.1, affected := addAffected acc.affected (empId, date),
            inserted := acc.inserted + 1, skipped := acc.skipped, empty := acc.empty }
        else
          { st := p.1, affected := addAffected acc.affected (empId, date),
            inserted := acc.inserted, skipped := acc.skipped + 1, empty := acc.empty }
      else { acc with st := st1, empty := acc.empty + 1 }

/-- The first `db.transaction` of `ingestSingleFile`: create the upload
row, then run the row loop (raw-log writes and counters only — the
`daily_attendance` cache is untouched here). -/
def ingestTxn1 (st : DBState) (uploadId filename : JStr) (rows : List CsvRow) : IngestAcc :=
  rows.foldl (processRow uploadId)
    { st := { st with uploads := st.uploads ++ [⟨uploadId, filename, 0, 0, 0⟩] },
      affected := [], inserted := 0, skipped := 0, empty := 0 }

/-- One step of the aggregation loop: re-read all stored punches for the
employee-day and upsert the rebuilt cache row (no delete branch in the
ingestion path). -/
def rebuildDayIngest (st : DBState) (k : JStr × JStr) : DBState :=
  let logs := dayLogs st.logs k.1 k.2
  if logs ≠ [] then
    upsertDaily st k.1 k.2 (rebuildPunchesStr logs) (rebuildUploadIdsStr logs)
  else st

/-- `UPDATE uploads SET records_inserted = ?, records_skipped = ?,
records_empty = ? WHERE id = ?`. -/
def updateUploadCounts (st : DBState) (u : JStr) (ins skp emp : Nat) : DBState :=
  { st with uploads := st.uploads.map (fun r =>
      if r.uid = u then
        { r with recordsInserted := ins, recordsSkipped := skp, recordsEmpty := emp }
      else r) }

/-- The second `db.transaction` of `ingestSingleFile`: rebuild the cache
row of every affected employee-day, then write the final counters to the
upload row. -/
def ingestTxn2 (uploadId : JStr) (acc : IngestAcc) : DBState :=
  updateUploadCounts (acc.affected.foldl rebuildDayIngest acc.st)
    uploadId acc.inserted acc.skipped acc.empty

/-- The returned `{ inserted, skipped, total, uploadId }` record. -/
structure IngestResult where
  inserted : Nat
  skipped : Nat
  total : Nat
  uploadId : JStr
deriving DecidableEq

/-- `ingestSingleFile`: the empty-file early return, then the two
consecutive transactions. -/
def ingestSingleFile (st : DBState) (uploadId filename : JStr) (rows : List CsvRow) :
    DBState × IngestResult :=
  if rows = [] then (st, ⟨0, 0, 0, uploadId⟩)
  else
    let acc := ingestTxn1 st uploadId filename rows
    (ingestTxn2 uploadId acc, ⟨acc.inserted, acc.skipped, rows.length, uploadId⟩)

/-- The committed database states observable during one ingestion batch:
the source wraps the raw-log inserts (`db.transaction` at lines 121-203)
and the cache rebuild (`db.transaction` at lines 227-255) in two
separate, consecutively committed transactions. -/
def ingestCommits (st : DBState) (uploadId filename : JStr) (rows : List CsvRow) :
    List DBState :=
  if rows = [] then []
  else [(ingestTxn1 st uploadId filename rows).st,
        ingestTxn2 uploadId (ingestTxn1 st uploadId filename rows)]

/-- The cache invariant for one employee-day: the `daily_attendance` row
equals the rebuild from the currently stored punches (and is absent when
no punch is stored). -/
def dayCacheConsistent (st : DBState) (e d : JStr) : Prop :=
  lookupDaily st e d =
    (if dayLogs st.logs e d ≠ [] then
       some ⟨e, d, rebuildPunchesStr (dayLogs st.logs e d),
             rebuildUploadIdsStr (dayLogs st.logs e d)⟩
     else none)

/-! ### Upload deletion (`api:delete-upload` in `main.js`) -/

/-- `needle` occurs at the start of `hay`. -/
def leadsWith : JStr → JStr → Bool
  | [], _ => true
  | _ :: _, [] => false
  | a :: as, b :: bs => a = b && leadsWith as bs

/-- `hay LIKE '%needle%'` / `hay.includes(needle)`: `needle` occurs
somewhere in `hay`. -/
def containsSeq (needle : JStr) : JStr → Bool
  | [] => needle = []
  | b :: bs => leadsWith needle (b :: bs) || containsSeq needle bs

/-- The errors thrown by the delete-upload handler, one constructor per
message: `Invalid upload ID` and `Upload not found`. -/
inductive DeleteErr
  | invalidUploadId
  | uploadNotFound
deriving DecidableEq

/-- One step of the deletion reconciler (loop D of the handler):
re-read the remaining punches of the employee-day; rebuild the cache row
if any remain, delete it otherwise. -/
def reconcileDayDelete (st : DBState) (k : JStr × JStr) : DBState :=
  let logs := dayLogs st.logs k.1 k.2
  if logs ≠ [] then
    upsertDaily st k.1 k.2 (rebuildPunchesStr logs) (rebuildUploadIdsStr logs)
  else deleteDaily st k.1 k.2

/-- The legacy `upload_ids` rewrite of one cache row: split on `","`,
drop the deleted id, re-join. -/
def legacyStrip (u : JStr) (ids : JStr) : JStr :=
  joinComma ((splitComma ids).filter (fun i => !(i = u)))

/-- The distinct `(employee_id, date)` pairs with a punch tagged by the
upload (`SELECT DISTINCT employee_id, date FROM attendance_logs WHERE
upload_id = ?`, loop A of the handler). -/
def affectedPairs (st : DBState) (uploadId : JStr) : List (JStr × JStr) :=
  dedupFirst []
    ((st.logs.filter (fun r => r.uploadId = some uploadId)).map
      (fun r => (r.empId, r.date)))

/-- Step B of the handler: `DELETE FROM uploads WHERE id = ?`.  The
schema (`db.js`) runs with `PRAGMA foreign_keys = ON` and declares
`attendance_logs.upload_id TEXT REFERENCES uploads(id) ON DELETE
CASCADE`, so deleting the `uploads` row also cascade-deletes every
punch row tagged with the upload. -/
def deleteStage1 (st : DBState) (uploadId : JStr) : DBState :=
  { st with uploads := st.uploads.filter (fun r => !(r.uid = uploadId)),
            logs := st.logs.filter (fun r => !(r.uploadId = some uploadId)) }

/-- The legacy fallback pass: strip the deleted id from every
`daily_attendance.upload_ids` column that mentions it. -/
def legacyApply (st : DBState) (uploadId : JStr) : DBState :=
  { st with daily := st.daily.map (fun r =>
      if containsSeq uploadId r.uploadIds then
        { r with uploadIds := legacyStrip uploadId r.uploadIds }
      else r) }

/-- `api:delete-upload` (one `db.transaction`; an error models the
rollback-and-throw paths): collect the affected `(employee_id, date)`
pairs, delete the upload row (`Upload not found` when absent) — which,
with `foreign_keys = ON` and the `ON DELETE CASCADE` on
`attendance_logs.upload_id`, also removes every punch row tagged with
the upload — then run the explicit
`DELETE FROM attendance_logs WHERE upload_id = ?`, whose `changes`
count (`logsDeletedCount`) is the number of tagged rows still present
after the cascade, i.e. always 0 (SQLite's `changes` also never counts
foreign-key-action deletes); reconcile each affected day, and — since
`logsDeletedCount === 0` always holds — strip the id from every
`daily_attendance.upload_ids` column that mentions it.  Returns the
final state and the reported count
(`logsDeletedCount + legacyUpdatedCount`, i.e. the legacy-strip
count). -/
def deleteUpload (st : DBState) (uploadId : JStr) : Except DeleteErr (DBState × Nat) :=
  if uploadId = [] then .error .invalidUploadId
  else
    let affected := affectedPairs st uploadId
    let uploadsAfter := st.uploads.filter (fun r => !(r.uid = uploadId))
    if st.uploads.length = uploadsAfter.length then .error .uploadNotFound
    else
      let stB := deleteStage1 st uploadId
      let logsDeletedCount :=
        (stB.logs.filter (fun r => r.uploadId = some uploadId)).length
      let st2 := affected.foldl reconcileDayDelete stB
      if logsDeletedCount = 0 then
        let legacyCount :=
          (st2.daily.filter (fun r => containsSeq uploadId r.uploadIds)).length
        .ok (legacyApply st2 uploadId, logsDeletedCount + legacyCount)
      else .ok (st2, logsDeletedCount)

/-- The database state observable after the handler returns: on a thrown
error the transaction rolls back and the store is unchanged. -/
def deleteUploadFinalState (st : DBState) (u : JStr) : DBState :=
  match deleteUpload st u with
  | .ok (s, _) => s
  | .error _ => st

/-! ### Monthly summary report (`monthlyReport.js`, cache-replaying
revision) -/

/-- One employee's row of the monthly summary.  Field names follow the
source (`present` = FullDay count, `woWorked` = WorkedOff count). -/
structure MonthStats where
  employeeId : JStr
  employeeName : JStr
  present : Nat
  halfDay : Nat
  absent : Nat
  weeklyOff : Nat
  woWorked : Nat
  totalPresent : ℚ
deriving DecidableEq

/-- Four-digit decimal rendering of a year. -/
def fourDigit (n : Nat) : JStr :=
  [48 + n / 1000 % 10, 48 + n / 100 % 10, 48 + n / 10 % 10, 48 + n % 10]

/-- The date string `` `${month}-${String(day).padStart(2, "0")}` ``
for month `YYYY-MM`. -/
def renderDateStr (y m d : Nat) : JStr :=
  fourDigit y ++ 45 :: twoDigit m ++ 45 :: twoDigit d

/-- Gregorian leap year. -/
def isLeapYear (y : Nat) : Bool := (y % 4 = 0 && y % 100 ≠ 0) || y % 400 = 0

/-- `new Date(year, month, 0).getDate()`: the day count of calendar
month `m` (1-12) of year `y`. -/
def daysInMonth (y m : Nat) : Nat :=
  if m = 2 then (if isLeapYear y then 29 else 28)
  else if m = 4 ∨ m = 6 ∨ m = 9 ∨ m = 11 then 30
  else 31

/-- The day-range cap of the monthly reports: up to today for the
current month, the full month for past months, and zero days for a
future month. -/
def reportLimitDay (today : CivilDate) (ty tm : Nat) : Nat :=
  if (ty : Int) = today.year ∧ tm = today.month then today.day
  else if today.year < (ty : Int) ∨ ((ty : Int) = today.year ∧ today.month < tm) then 0
  else daysInMonth ty tm

/-- The `first_in`/`last_out` extraction done when the report builds its
lookup map: split the punches string on `", "`, trim, sort, take the
first and last element (both `null` for a falsy punches column). -/
def firstLastOfPunches (p : JStr) : Option JStr × Option JStr :=
  if p = [] then (none, none)
  else
    match jsSort ((splitCS p).map jsTrim) with
    | [] => (none, none)
    | t :: rest => (some t, some ((t :: rest).getLast (List.cons_ne_nil t rest)))

/-- The per-day bucket update of the monthly summary (lines 387-432 of
the source): Sunday under 5 h is WeeklyOff; otherwise ≥ 8 h FullDay,
≥ 5 h HalfDay, else Absent; Sundays reaching a worked tier also count
`woWorked`; a day with bad or missing punch data is WeeklyOff on Sunday
and Absent otherwise. -/
def monthlyDayUpdate (stats : MonthStats) (log : Option DailyRow) (date : CivilDate) :
    MonthStats :=
  let isSun := isSunday date
  match log with
  | some l =>
    let fl := firstLastOfPunches l.punches
    match fl.1.bind timeToMinutes012, fl.2.bind timeToMinutes012 with
    | some inMins, some outMins =>
      if inMins < outMins then
        let w := outMins - inMins
        if isSun ∧ w < 300 then { stats with weeklyOff := stats.weeklyOff + 1 }
        else if 480 ≤ w then
          { stats with present := stats.present + 1,
                       woWorked := stats.woWorked + (if isSun then 1 else 0) }
        else if 300 ≤ w then
          { stats with halfDay := stats.halfDay + 1,
                       woWorked := stats.woWorked + (if isSun then 1 else 0) }
        else { stats with absent := stats.absent + 1 }
      else if isSun then { stats with weeklyOff := stats.weeklyOff + 1 }
      else { stats with absent := stats.absent + 1 }
    | _, _ =>
      if isSun then { stats with weeklyOff := stats.weeklyOff + 1 }
      else { stats with absent := stats.absent + 1 }
  | none =>
    if isSun then { stats with weeklyOff := stats.weeklyOff + 1 }
    else { stats with absent := stats.absent + 1 }

/-- `generateMonthlyReport(month)` for month `YYYY-MM` = `(ty, tm)`:
for every employee, replay the day classifier over days 1 …
`reportLimitDay`, then set `totalPresent = present + halfDay * 0.5`. -/
def generateMonthlyReport (employees : List (JStr × JStr)) (daily : List DailyRow)
    (today : CivilDate) (ty tm : Nat) : List MonthStats :=
  let limitDay := reportLimitDay today ty tm
  employees.map (fun e =>
    let s := (List.range' 1 limitDay).foldl
      (fun stats day =>
        let dateStr := renderDateStr ty tm day
        let log := daily.find? (fun r => r.empId = e.1 && r.date = dateStr)
        monthlyDayUpdate stats log ⟨(ty : Int), tm, day⟩)
      ⟨e.1, e.2, 0, 0, 0, 0, 0, 0⟩
    { s with totalPresent := (s.present : ℚ) + (s.halfDay : ℚ) * (1 / 2) })

/-! ### Daily report (`src/components/DailyReport.jsx`) -/

/-- The status values of the daily report, one constructor per source
string: `Full Day`, `Half Day`, `Absent`, `Weekly Off`, `WO Worked`. -/
inductive DailyStatus
  | fullDay
  | halfDay
  | absent
  | weeklyOff
  | woWorked
deriving DecidableEq

/-- One row of the daily report. -/
structure DailyReportRow where
  employeeId : JStr
  employeeName : JStr
  firstIn : Option JStr
  lastOut : Option JStr
  workingMins : Int
  breakMins : Int
  punchCount : Nat
  status : DailyStatus
deriving DecidableEq

/-- The component-local `timeToMinutes`:
`const [h, m] = time.split(":").map(Number); return h * 60 + m`
(seconds parts beyond the minutes are ignored by the destructuring;
`none` models the `null` and `NaN` outcomes). -/
def timeToMinutesDR (t : JStr) : Option Nat :=
  if t = [] then none
  else
    match splitColon t with
    | [] => none
    | p0 :: rest =>
      match jsNumberNat p0, rest.head?.bind jsNumberNat with
      | some h, some m => some (h * 60 + m)
      | _, _ => none

/-- Adjacent disjoint pairs `(l[0], l[1]), (l[2], l[3]), …`, keeping
only complete pairs. -/
def pairUp {α : Type} : List α → List (α × α)
  | a :: b :: rest => (a, b) :: pairUp rest
  | _ => []

/-- The break loop of `fetchDailyReport`
(`for (let i = 1; i < punches.length - 1; i += 2)`): over the punch
pairs at indices (1,2), (3,4), …, add `inTime - outTime` when both
values are truthy (non-`NaN` and non-zero) and the gap is positive. -/
def breakMinsLoop (punches : List JStr) : Int :=
  (pairUp (punches.drop 1)).foldl
    (fun acc p =>
      match timeToMinutesDR p.1, timeToMinutesDR p.2 with
      | some ov, some iv =>
        if ov ≠ 0 ∧ iv ≠ 0 ∧ ov < iv then acc + ((iv : Int) - (ov : Int)) else acc
      | _, _ => acc) 0

/-- The per-employee computation of `fetchDailyReport` (lines 301-367):
split/trim/sort the cached punches, take first-in and last-out, compute
`totalMins`, the break sum and `workingMins = totalMins - breakMins`,
and classify on `workingMins` (status stays `Absent` when the first/last
parse fails or `outMin ≤ inMin`, even on a Sunday). -/
def dailyReportRow (empId empName : JStr) (punchesStr : Option JStr) (date : CivilDate) :
    DailyReportRow :=
  let punches :=
    match punchesStr with
    | some p => if p = [] then [] else jsSort ((splitCS p).map jsTrim)
    | none => []
  match punches with
  | [] => ⟨empId, empName, none, none, 0, 0, 0,
           if isSunday date then .weeklyOff else .absent⟩
  | t0 :: rest =>
    let firstIn := t0
    let lastOut := (t0 :: rest).getLast (List.cons_ne_nil t0 rest)
    let fallback : DailyReportRow :=
      ⟨empId, empName, some firstIn, some lastOut, 0, 0, (t0 :: rest).length, .absent⟩
    match timeToMinutesDR firstIn, timeToMinutesDR lastOut with
    | some inMin, some outMin =>
      if inMin < outMin then
        let totalMins : Int := (outMin : Int) - (inMin : Int)
        let breakMins := breakMinsLoop (t0 :: rest)
        let workingMins := totalMins - breakMins
        let status : DailyStatus :=
          if isSunday date then (if 300 ≤ workingMins then .woWorked else .weeklyOff)
          else if 480 ≤ workingMins then .fullDay
          else if 300 ≤ workingMins then .halfDay
          else .absent
        ⟨empId, empName, some firstIn, some lastOut, workingMins, breakMins,
         (t0 :: rest).length, status⟩
      else fallback
    | _, _ => fallback

/-- Modelled from the spec: `breakMinutes` as the spec words it — "the
sum of the positive gaps between the punches at 0-indexed index pairs
(1,2), (3,4), …" — for comparison with the code's break loop. -/
def breakMinutesSpec (punches : List JStr) : Int :=
  (pairUp (punches.drop 1)).foldl
    (fun acc p =>
      match timeToMinutesDR p.1, timeToMinutesDR p.2 with
      | some ov, some iv => acc + max 0 ((iv : Int) - (ov : Int))
      | _, _ => acc) 0

/-- The amended break formula: as `breakMinutesSpec`, except that a pair
whose OUT punch lies in the minute 00:00 (minute value 0) is skipped —
the truthiness guard of the source loop. -/
def breakMinsAmended (ts : List JTime) : Int :=
  (pairUp (ts.drop 1)).foldl
    (fun acc p =>
      if p.1.mins ≠ 0 ∧ p.1.mins < p.2.mins then
        acc + ((p.2.mins : Int) - (p.1.mins : Int))
      else acc) 0

/-! ### Concrete fixtures used by witnesses and counterexamples -/

/-- 2025-01-01, a Wednesday. -/
def wedDate : CivilDate := ⟨2025, 1, 1⟩

/-- 2025-01-05, a Sunday. -/
def sunDate : CivilDate := ⟨2025, 1, 5⟩

/-- The empty store. -/
def emptyDB : DBState := ⟨[], [], [], []⟩

/-- `E1` as code units. -/
def empE1 : JStr := [69, 49]

/-- `2025-01-06` as code units. -/
def dateJan6 : JStr := [50, 48, 50, 53, 45, 48, 49, 45, 48, 54]

/-- `09:00` as code units. -/
def t0900 : JStr := [48, 57, 58, 48, 48]

/-- `18:00` as code units. -/
def t1800 : JStr := [49, 56, 58, 48, 48]

/-- `u` (an upload id) as code units. -/
def uidU : JStr := [117]

/-- `v` (a second upload id) as code units. -/
def uidV : JStr := [118]

/-- `f` (a filename) as code units. -/
def fileF : JStr := [102]

/-- A CSV row `E1, 2025-01-06, "09:00, 18:00"`. -/
def rowE1 : CsvRow := ⟨some empE1, some dateJan6, some (t0900 ++ 44 :: 32 :: t1800)⟩

/-- A store holding upload `u` with no tagged punches and one legacy
`daily_attendance` row whose `upload_ids` column mentions `u`: the
pre-migration shape handled by the legacy fallback of the delete
handler. -/
def legacyDB : DBState :=
  ⟨[(empE1, empE1)], [], [⟨uidU, fileF, 0, 0, 0⟩], [⟨empE1, dateJan6, t0900, uidU⟩]⟩

/-- A store with one punch owned by upload `u` and both uploads `u`,
`v` present. -/
def twoUploadDB : DBState :=
  ⟨[(empE1, empE1)], [⟨empE1, dateJan6, t0900, some uidU⟩],
   [⟨uidU, fileF, 1, 0, 0⟩, ⟨uidV, fileF, 0, 0, 0⟩], [⟨empE1, dateJan6, t0900, uidU⟩]⟩

/-- The punches string `00:00, 00:00:30, 06:00, 07:00` (a punch inside
the minute 00:00 at an OUT position of the break pairing). -/
def midnightPunches : JStr :=
  [48, 48, 58, 48, 48] ++ 44 :: 32 :: [48, 48, 58, 48, 48, 58, 51, 48] ++
    44 :: 32 :: [48, 54, 58, 48, 48] ++ 44 :: 32 :: [48, 55, 58, 48, 48]

/-- The spec scenario punches `09:00:00, 12:30:00, 13:00:00, 18:05:00`. -/
def scenarioPunches : JStr :=
  [48, 57, 58, 48, 48, 58, 48, 48] ++ 44 :: 32 :: [49, 50, 58, 51, 48, 58, 48, 48] ++
    44 :: 32 :: [49, 51, 58, 48, 48, 58, 48, 48] ++ 44 :: 32 :: [49, 56, 58, 48, 53, 58, 48, 48]

/-- `09:00:30` as code units. -/
def t090030 : JStr := [48, 57, 58, 48, 48, 58, 51, 48]

/-! ## Supporting lemmas -/

theorem dropWhile_eq_self_of_head (p : Nat → Bool) (s : JStr)
    (h : ∀ c, s.head? = some c → p c = false) : s.dropWhile p = s := by
  cases s with
  | nil => rfl
  | cons c t =>
    have hc := h c rfl
    simp [List.dropWhile, hc]

theorem jsTrim_eq_self (s : JStr)
    (hh : ∀ c, s.head? = some c → isWS c = false)
    (hl : ∀ c, s.getLast? = some c → isWS c = false) : jsTrim s = s := by
  unfold jsTrim
  rw [dropWhile_eq_self_of_head _ s hh]
  rw [dropWhile_eq_self_of_head _ s.reverse
    (fun c hc => hl c (by rwa [List.head?_reverse] at hc))]
  simp

theorem isWS_eq_false_of_ge (c : Nat) (h : 48 ≤ c) : isWS c = false := by
  simp only [isWS]
  simp only [Bool.or_eq_false_iff, decide_eq_false_iff_not]
  omega

theorem mem_twoDigit_bounds (n c : Nat) (hn : n < 100) (hc : c ∈ twoDigit n) :
    48 ≤ c ∧ c ≤ 57 := by
  simp only [twoDigit, List.mem_cons, List.not_mem_nil, or_false] at hc
  rcases hc with h | h <;> subst h <;> omega

theorem mem_render_bounds (T : JTime) (hT : T.Valid) (c : Nat)
    (hc : c ∈ T.render) : 48 ≤ c ∧ c ≤ 58 := by
  obtain ⟨h1, h2, h3⟩ := hT
  rcases hss : T.ss with _ | s
  · simp only [JTime.render, hss, twoDigit, List.append_nil, List.mem_append,
      List.mem_cons, List.not_mem_nil, or_false] at hc
    rcases hc with h | h | h | h | h <;> omega
  · have hs : s < 60 := h3 s (by rw [hss]; rfl)
    simp only [JTime.render, hss, twoDigit, List.mem_append, List.mem_cons,
      List.not_mem_nil, or_false] at hc
    rcases hc with h | h | h | h | h | h | h | h <;> omega

theorem splitCS_sep_cons (b : JStr) : splitCS (44 :: 32 :: b) = [] :: splitCS b := by
  simp [splitCS]

theorem splitCS_no44 : ∀ (s : JStr), (∀ c ∈ s, c ≠ 44) → splitCS s = [s]
  | [], _ => rfl
  | [_], _ => rfl
  | c :: d :: rest, h => by
    have hc : c ≠ 44 := h c (by simp)
    have ih := splitCS_no44 (d :: rest) (fun x hx => h x (List.mem_cons_of_mem _ hx))
    simp only [splitCS]
    rw [if_neg (fun hcd => hc hcd.1), ih]

theorem splitCS_append : ∀ (a b : JStr), (∀ c ∈ a, c ≠ 44) →
    splitCS (a ++ 44 :: 32 :: b) = a :: splitCS b
  | [], b, _ => by
    simpa using splitCS_sep_cons b
  | c :: a', b, h => by
    have hc : c ≠ 44 := h c (by simp)
    have ih := splitCS_append a' b (fun x hx => h x (List.mem_cons_of_mem _ hx))
    cases a' with
    | nil =>
      simp [splitCS]
    | cons d' a'' =>
      simp only [List.cons_append] at ih ⊢
      simp only [splitCS]
      rw [if_neg (fun hcd => hc hcd.1), ih]

theorem splitColon_sep_cons (b : JStr) : splitColon (58 :: b) = [] :: splitColon b := by
  simp [splitColon]

theorem splitColon_no58 : ∀ (s : JStr), (∀ c ∈ s, c ≠ 58) → splitColon s = [s]
  | [], _ => rfl
  | c :: rest, h => by
    have hc : c ≠ 58 := h c (by simp)
    have ih := splitColon_no58 rest (fun x hx => h x (List.mem_cons_of_mem _ hx))
    simp only [splitColon]
    rw [if_neg hc, ih]

theorem splitColon_append : ∀ (a b : JStr), (∀ c ∈ a, c ≠ 58) →
    splitColon (a ++ 58 :: b) = a :: splitColon b
  | [], b, _ => by simpa using splitColon_sep_cons b
  | c :: a', b, h => by
    have hc : c ≠ 58 := h c (by simp)
    have ih := splitColon_append a' b (fun x hx => h x (List.mem_cons_of_mem _ hx))
    simp only [List.cons_append, splitColon]
    rw [if_neg hc]
    simp only [List.append_eq]
    rw [ih]

theorem twoDigit_mem_ne58 (n c : Nat) (hn : n < 100) (hc : c ∈ twoDigit n) : c ≠ 58 := by
  have := mem_twoDigit_bounds n c hn hc
  omega

theorem splitColon_render_none (T : JTime) (hT : T.Valid) (hss : T.ss = none) :
    splitColon T.render = [twoDigit T.hh, twoDigit T.mm] := by
  obtain ⟨h1, h2, _⟩ := hT
  simp only [JTime.render, hss]
  rw [List.append_nil,
    splitColon_append _ _ (fun c hc => twoDigit_mem_ne58 T.hh c (by omega) hc),
    splitColon_no58 _ (fun c hc => twoDigit_mem_ne58 T.mm c (by omega) hc)]

theorem splitColon_render_some (T : JTime) (hT : T.Valid) (s : Nat) (hss : T.ss = some s) :
    splitColon T.render = [twoDigit T.hh, twoDigit T.mm, twoDigit s] := by
  obtain ⟨h1, h2, h3⟩ := hT
  have hs : s < 60 := h3 s (by rw [hss]; rfl)
  simp only [JTime.render, hss]
  rw [splitColon_append _ _ (fun c hc => twoDigit_mem_ne58 T.hh c (by omega) hc),
    splitColon_append _ _ (fun c hc => twoDigit_mem_ne58 T.mm c (by omega) hc),
    splitColon_no58 _ (fun c hc => twoDigit_mem_ne58 s c (by omega) hc)]

theorem isDigitCU_eq_true (c : Nat) (h1 : 48 ≤ c) (h2 : c ≤ 57) : isDigitCU c = true := by
  simp only [isDigitCU]
  simp only [Bool.and_eq_true, decide_eq_true_eq]
  omega

theorem jsParseIntNat_twoDigit (n : Nat) (h : n < 100) :
    jsParseIntNat (twoDigit n) = some n := by
  have h1 : isDigitCU (48 + n / 10) = true := isDigitCU_eq_true _ (by omega) (by omega)
  have h2 : isDigitCU (48 + n % 10) = true := isDigitCU_eq_true _ (by omega) (by omega)
  simp only [twoDigit, jsParseIntNat, takeDigitsVal, h1, h2, if_true]
  congr 1
  omega

theorem jsNumberNat_twoDigit (n : Nat) (h : n < 100) :
    jsNumberNat (twoDigit n) = some n := by
  have h1 : isDigitCU (48 + n / 10) = true := isDigitCU_eq_true _ (by omega) (by omega)
  have h2 : isDigitCU (48 + n % 10) = true := isDigitCU_eq_true _ (by omega) (by omega)
  simp only [twoDigit, jsNumberNat, takeDigitsVal, h1, h2, List.all_cons, List.all_nil,
    Bool.and_true, Bool.and_self, ne_eq, List.cons_ne_nil, not_false_iff, true_and, if_true]
  congr 1
  omega

theorem render_ne_nil (T : JTime) : T.render ≠ [] := by
  simp [JTime.render, twoDigit]

theorem timeToMinutes012_render (T : JTime) (hT : T.Valid) :
    timeToMinutes012 T.render = some T.mins := by
  have hv := hT
  obtain ⟨h1, h2, _⟩ := hv
  unfold timeToMinutes012
  rw [if_neg (render_ne_nil T)]
  rcases hss : T.ss with _ | s
  · rw [splitColon_render_none T hT hss]
    simp only [List.getElem?_cons_zero, List.getElem?_cons_succ]
    rw [jsParseIntNat_twoDigit _ (by omega), jsParseIntNat_twoDigit _ (by omega)]
    rfl
  · rw [splitColon_render_some T hT s hss]
    simp only [List.getElem?_cons_zero, List.getElem?_cons_succ]
    rw [jsParseIntNat_twoDigit _ (by omega), jsParseIntNat_twoDigit _ (by omega)]
    rfl

theorem render_head? (T : JTime) : T.render.head? = some (48 + T.hh / 10) := by
  simp [JTime.render, twoDigit]

theorem render_getLast?_digit (T : JTime) (hT : T.Valid) :
    ∃ c, T.render.getLast? = some c ∧ 48 ≤ c ∧ c ≤ 57 := by
  obtain ⟨_, h2, h3⟩ := hT
  rcases hss : T.ss with _ | s
  · exact ⟨48 + T.mm % 10, by simp only [JTime.render, hss]; rfl, by omega, by omega⟩
  · have hs : s < 60 := h3 s (by rw [hss]; rfl)
    exact ⟨48 + s % 10, by simp only [JTime.render, hss]; rfl, by omega, by omega⟩

theorem jsTrim_render (T : JTime) (hT : T.Valid) : jsTrim T.render = T.render := by
  apply jsTrim_eq_self
  · intro c hc
    rw [render_head? T] at hc
    injection hc with h
    subst h
    exact isWS_eq_false_of_ge _ (by omega)
  · intro c hc
    obtain ⟨c', hc', hb1, hb2⟩ := render_getLast?_digit T hT
    rw [hc'] at hc
    injection hc with h
    subst h
    exact isWS_eq_false_of_ge _ (by omega)

theorem jsTrim_pairStr (T1 T2 : JTime) (h1 : T1.Valid) (h2 : T2.Valid) :
    jsTrim (T1.render ++ (44 :: (32 :: T2.render))) =
      T1.render ++ (44 :: (32 :: T2.render)) := by
  apply jsTrim_eq_self
  · intro c hc
    obtain ⟨x, t, hx⟩ := List.exists_cons_of_ne_nil (render_ne_nil T1)
    rw [hx, List.cons_append] at hc
    have hx' : T1.render.head? = some x := by rw [hx]; rfl
    rw [render_head? T1] at hx'
    injection hc with h
    injection hx' with h'
    subst h
    exact isWS_eq_false_of_ge _ (by omega)
  · intro c hc
    rw [List.getLast?_append_of_ne_nil _ (by simp),
      show (44 :: (32 :: T2.render)) = [44, 32] ++ T2.render from rfl,
      List.getLast?_append_of_ne_nil _ (render_ne_nil T2)] at hc
    obtain ⟨c', hc', hb1, hb2⟩ := render_getLast?_digit T2 h2
    rw [hc'] at hc
    injection hc with h
    subst h
    exact isWS_eq_false_of_ge _ (by omega)

theorem jsLt_cons (p q : Nat) (ps qs : JStr) :
    jsLt (p :: ps) (q :: qs) =
      if p < q then true else if q < p then false else jsLt ps qs := rfl

theorem jsLt_twoDigit_append (a b : Nat) (x y : JStr) (ha : a < 100) (hb : b < 100) :
    jsLt (twoDigit a ++ x) (twoDigit b ++ y) =
      (if a < b then true else if b < a then false else jsLt x y) := by
  simp only [twoDigit, List.cons_append]
  rw [jsLt_cons, jsLt_cons]
  split_ifs <;> first | rfl | omega | (exfalso; omega)

theorem ssGetD_lt (T : JTime) (hT : T.Valid) : T.ss.getD 0 < 60 := by
  rcases hss : T.ss with _ | s
  · simp
  · simpa using hT.2.2 s (by rw [hss]; rfl)

theorem mins_le_of_instant_lt (T1 T2 : JTime) (h1 : T1.Valid) (h2 : T2.Valid)
    (hlt : T1.instant < T2.instant) : T1.mins ≤ T2.mins := by
  have b1 := ssGetD_lt T1 h1
  have b2 := ssGetD_lt T2 h2
  have m1 := h1.2.1
  have m2 := h2.2.1
  simp only [JTime.instant] at hlt
  simp only [JTime.mins]
  omega

theorem jsLt_render_false_of_instant_lt (T1 T2 : JTime) (h1 : T1.Valid) (h2 : T2.Valid)
    (hlt : T1.instant < T2.instant) : jsLt T2.render T1.render = false := by
  obtain ⟨h1h, h1m, h1s⟩ := h1
  obtain ⟨h2h, h2m, h2s⟩ := h2
  rcases hss1 : T1.ss with _ | s1 <;> rcases hss2 : T2.ss with _ | s2
  · simp only [JTime.instant, hss1, hss2, Option.getD_none] at hlt
    simp only [JTime.render, hss1, hss2, List.append_nil]
    rw [jsLt_twoDigit_append _ _ _ _ (by omega) (by omega)]
    split_ifs with hA hB
    · omega
    · rfl
    · rw [jsLt_cons, if_neg (by omega), if_neg (by omega),
        show twoDigit T2.mm = twoDigit T2.mm ++ [] from (List.append_nil _).symm,
        show twoDigit T1.mm = twoDigit T1.mm ++ [] from (List.append_nil _).symm,
        jsLt_twoDigit_append _ _ _ _ (by omega) (by omega)]
      split_ifs with hC hD
      · omega
      · rfl
      · rfl
  · have hs2 : s2 < 60 := h2s s2 (by rw [hss2]; rfl)
    simp only [JTime.instant, hss1, hss2, Option.getD_none, Option.getD_some] at hlt
    simp only [JTime.render, hss1, hss2, List.append_nil]
    rw [jsLt_twoDigit_append _ _ _ _ (by omega) (by omega)]
    split_ifs with hA hB
    · omega
    · rfl
    · rw [jsLt_cons, if_neg (by omega), if_neg (by omega),
        show twoDigit T1.mm = twoDigit T1.mm ++ [] from (List.append_nil _).symm,
        jsLt_twoDigit_append _ _ _ _ (by omega) (by omega)]
      split_ifs with hC hD
      · omega
      · rfl
      · rfl
  · have hs1 : s1 < 60 := h1s s1 (by rw [hss1]; rfl)
    simp only [JTime.instant, hss1, hss2, Option.getD_none, Option.getD_some] at hlt
    simp only [JTime.render, hss1, hss2, List.append_nil]
    rw [jsLt_twoDigit_append _ _ _ _ (by omega) (by omega)]
    split_ifs with hA hB
    · omega
    · rfl
    · rw [jsLt_cons, if_neg (by omega), if_neg (by omega),
        show twoDigit T2.mm = twoDigit T2.mm ++ [] from (List.append_nil _).symm,
        jsLt_twoDigit_append _ _ _ _ (by omega) (by omega)]
      split_ifs with hC hD
      · omega
      · rfl
      · -- the minute fields agree, so the instants force s1 < 0
        exfalso
        omega
  · have hs1 : s1 < 60 := h1s s1 (by rw [hss1]; rfl)
    have hs2 : s2 < 60 := h2s s2 (by rw [hss2]; rfl)
    simp only [JTime.instant, hss1, hss2, Option.getD_some] at hlt
    simp only [JTime.render, hss1, hss2]
    rw [jsLt_twoDigit_append _ _ _ _ (by omega) (by omega)]
    split_ifs with hA hB
    · omega
    · rfl
    · rw [jsLt_cons, if_neg (by omega), if_neg (by omega),
        jsLt_twoDigit_append _ _ _ _ (by omega) (by omega)]
      split_ifs with hC hD
      · omega
      · rfl
      · rw [jsLt_cons, if_neg (by omega), if_neg (by omega),
          show twoDigit s2 = twoDigit s2 ++ [] from (List.append_nil _).symm,
          show twoDigit s1 = twoDigit s1 ++ [] from (List.append_nil _).symm,
          jsLt_twoDigit_append _ _ _ _ (by omega) (by omega)]
        split_ifs with hE hF
        · omega
        · rfl
        · -- equal seconds would contradict the strict instant order
          exfalso
          omega

theorem jsSort_pair (x y : JStr) :
    jsSort [x, y] = if jsLt y x then [y, x] else [x, y] := rfl

theorem pipeline_pair (T1 T2 : JTime) (h1 : T1.Valid) (h2 : T2.Valid)
    (hlt : T1.instant < T2.instant) :
    jsSort ((splitCS (T1.render ++ (44 :: (32 :: T2.render)))).map jsTrim) =
      [T1.render, T2.render] := by
  rw [show (44 :: (32 :: T2.render)) = 44 :: 32 :: T2.render from rfl,
    splitCS_append _ _ (fun c hc => by
      have := mem_render_bounds T1 h1 c hc
      omega),
    splitCS_no44 _ (fun c hc => by
      have := mem_render_bounds T2 h2 c hc
      omega)]
  simp only [List.map_cons, List.map_nil]
  rw [jsTrim_render T1 h1, jsTrim_render T2 h2, jsSort_pair,
    jsLt_render_false_of_instant_lt T1 T2 h1 h2 hlt]
  simp

theorem getLast_pair (a b : JStr) (h : ([a, b] : List JStr) ≠ []) :
    [a, b].getLast h = b := rfl

theorem getDayDetails_pair (T1 T2 : JTime) (h1 : T1.Valid) (h2 : T2.Valid)
    (hlt : T1.instant < T2.instant) (date : CivilDate) :
    getDayDetails (some (T1.render ++ (44 :: (32 :: T2.render)))) date =
      (if T1.mins < T2.mins then
        ⟨(if isSunday date then (if 300 ≤ T2.mins - T1.mins then .WW else .WO)
          else if 480 ≤ T2.mins - T1.mins then .P
          else if 300 ≤ T2.mins - T1.mins then .HD
          else .A),
         some T1.render, some T2.render, T2.mins - T1.mins⟩
      else ⟨if isSunday date then .WO else .A,
            some T1.render, some T2.render, 0⟩) := by
  simp only [getDayDetails]
  rw [jsTrim_pairStr T1 T2 h1 h2]
  rw [if_neg (by simp [render_ne_nil T1])]
  rw [pipeline_pair T1 T2 h1 h2 hlt]
  simp only [List.getLast_cons, List.getLast_singleton]
  rw [getLast_pair]
  rw [timeToMinutes012_render T1 h1, timeToMinutes012_render T2 h2]

/-! ## Claims -/

/-- C1: for every non-empty punch list `[t1, t2]` of valid canonical
times with `t1 < t2` stored as the punches string `"t1, t2"`, on a
non-Sunday date the day classifier `getDayDetails` returns
`workedMinutes = minutes(t2) - minutes(t1)` (whole minutes,
`h * 60 + m`, as computed by its local `timeToMinutes`), and the status
is `P` (FullDay) iff that value is ≥ 480, `HD` (HalfDay) iff it lies in
[300, 480), and `A` (Absent) otherwise. -/
theorem C1_weekday_two_punch_classification
    (T1 T2 : JTime) (h1 : T1.Valid) (h2 : T2.Valid)
    (hlt : T1.instant < T2.instant)
    (date : CivilDate) (hsun : isSunday date = false) :
    (getDayDetails (some (T1.render ++ (44 :: (32 :: T2.render)))) date).workedMinutes
        = T2.mins - T1.mins ∧
    ((getDayDetails (some (T1.render ++ (44 :: (32 :: T2.render)))) date).status = .P ↔
        480 ≤ T2.mins - T1.mins) ∧
    ((getDayDetails (some (T1.render ++ (44 :: (32 :: T2.render)))) date).status = .HD ↔
        (300 ≤ T2.mins - T1.mins ∧ T2.mins - T1.mins < 480)) ∧
    ((getDayDetails (some (T1.render ++ (44 :: (32 :: T2.render)))) date).status = .A ↔
        T2.mins - T1.mins < 300) := by
  have hle := mins_le_of_instant_lt T1 T2 h1 h2 hlt
  rw [getDayDetails_pair T1 T2 h1 h2 hlt date]
  by_cases hmm : T1.mins < T2.mins
  · rw [if_pos hmm]
    refine ⟨rfl, ?_, ?_, ?_⟩ <;>
      simp only [hsun, Bool.false_eq_true, if_false] <;>
      split_ifs <;> simp_all <;> omega
  · rw [if_neg hmm]
    have h0 : T2.mins - T1.mins = 0 := by omega
    refine ⟨by simp [h0], ?_, ?_, ?_⟩ <;>
      simp only [hsun, Bool.false_eq_true, if_false, h0] <;> simp_all

/-- C1 witness: the theorem applied at `t1 = 09:00:00`,
`t2 = 18:00:00` on Wednesday 2025-01-01 (540 worked minutes, FullDay). -/
theorem C1_weekday_two_punch_classification_witness :
    (JTime.mk 9 0 (some 0)).Valid ∧ (JTime.mk 18 0 (some 0)).Valid ∧
    (JTime.mk 9 0 (some 0)).instant < (JTime.mk 18 0 (some 0)).instant ∧
    isSunday wedDate = false ∧
    ((getDayDetails (some ((JTime.mk 9 0 (some 0)).render ++
        (44 :: (32 :: (JTime.mk 18 0 (some 0)).render)))) wedDate).workedMinutes
          = (JTime.mk 18 0 (some 0)).mins - (JTime.mk 9 0 (some 0)).mins ∧
     ((getDayDetails (some ((JTime.mk 9 0 (some 0)).render ++
        (44 :: (32 :: (JTime.mk 18 0 (some 0)).render)))) wedDate).status = .P ↔
          480 ≤ (JTime.mk 18 0 (some 0)).mins - (JTime.mk 9 0 (some 0)).mins) ∧
     ((getDayDetails (some ((JTime.mk 9 0 (some 0)).render ++
        (44 :: (32 :: (JTime.mk 18 0 (some 0)).render)))) wedDate).status = .HD ↔
          (300 ≤ (JTime.mk 18 0 (some 0)).mins - (JTime.mk 9 0 (some 0)).mins ∧
           (JTime.mk 18 0 (some 0)).mins - (JTime.mk 9 0 (some 0)).mins < 480)) ∧
     ((getDayDetails (some ((JTime.mk 9 0 (some 0)).render ++
        (44 :: (32 :: (JTime.mk 18 0 (some 0)).render)))) wedDate).status = .A ↔
          (JTime.mk 18 0 (some 0)).mins - (JTime.mk 9 0 (some 0)).mins < 300)) := by
  have hv1 : (JTime.mk 9 0 (some 0)).Valid :=
    ⟨by decide, by decide, by intro s hs; simp at hs; omega⟩
  have hv2 : (JTime.mk 18 0 (some 0)).Valid :=
    ⟨by decide, by decide, by intro s hs; simp at hs; omega⟩
  have hlt : (JTime.mk 9 0 (some 0)).instant < (JTime.mk 18 0 (some 0)).instant := by
    decide
  have hws : isSunday wedDate = false := rfl
  exact ⟨hv1, hv2, hlt, hws,
    C1_weekday_two_punch_classification _ _ hv1 hv2 hlt wedDate hws⟩

/-- C2: on every Sunday date the day classifier returns status `WO`
(WeeklyOff) for an empty punch list, and for a two-punch list
`[t1, t2]` with `t1 < t2` it returns `WW` (WorkedOff) iff the worked
minutes reach 300, `WO` otherwise. -/
theorem C2_sunday_classification
    (T1 T2 : JTime) (h1 : T1.Valid) (h2 : T2.Valid)
    (hlt : T1.instant < T2.instant)
    (date : CivilDate) (hsun : isSunday date = true) :
    (getDayDetails none date).status = .WO ∧
    (getDayDetails (some (T1.render ++ (44 :: (32 :: T2.render)))) date).workedMinutes
        = T2.mins - T1.mins ∧
    ((getDayDetails (some (T1.render ++ (44 :: (32 :: T2.render)))) date).status = .WW ↔
        300 ≤ T2.mins - T1.mins) ∧
    ((getDayDetails (some (T1.render ++ (44 :: (32 :: T2.render)))) date).status = .WO ↔
        T2.mins - T1.mins < 300) := by
  have hle := mins_le_of_instant_lt T1 T2 h1 h2 hlt
  have hempty : (getDayDetails none date).status = .WO := by
    simp [getDayDetails, hsun]
  rw [getDayDetails_pair T1 T2 h1 h2 hlt date]
  by_cases hmm : T1.mins < T2.mins
  · rw [if_pos hmm]
    refine ⟨hempty, rfl, ?_, ?_⟩ <;>
      simp only [hsun, if_true] <;> split_ifs <;> simp_all <;> omega
  · rw [if_neg hmm]
    have h0 : T2.mins - T1.mins = 0 := by omega
    refine ⟨hempty, by simp [h0], ?_, ?_⟩ <;>
      simp only [hsun, if_true, h0] <;> simp_all

/-- C2 witness: the theorem applied at `t1 = 09:00`, `t2 = 14:00` on
Sunday 2025-01-05 (300 worked minutes, WorkedOff; empty list WeeklyOff). -/
theorem C2_sunday_classification_witness :
    (JTime.mk 9 0 none).Valid ∧ (JTime.mk 14 0 none).Valid ∧
    (JTime.mk 9 0 none).instant < (JTime.mk 14 0 none).instant ∧
    isSunday sunDate = true ∧
    ((getDayDetails none sunDate).status = .WO ∧
     (getDayDetails (some ((JTime.mk 9 0 none).render ++
        (44 :: (32 :: (JTime.mk 14 0 none).render)))) sunDate).workedMinutes
          = (JTime.mk 14 0 none).mins - (JTime.mk 9 0 none).mins ∧
     ((getDayDetails (some ((JTime.mk 9 0 none).render ++
        (44 :: (32 :: (JTime.mk 14 0 none).render)))) sunDate).status = .WW ↔
          300 ≤ (JTime.mk 14 0 none).mins - (JTime.mk 9 0 none).mins) ∧
     ((getDayDetails (some ((JTime.mk 9 0 none).render ++
        (44 :: (32 :: (JTime.mk 14 0 none).render)))) sunDate).status = .WO ↔
          (JTime.mk 14 0 none).mins - (JTime.mk 9 0 none).mins < 300)) := by
  have hv1 : (JTime.mk 9 0 none).Valid :=
    ⟨by decide, by decide, by intro s hs; simp at hs⟩
  have hv2 : (JTime.mk 14 0 none).Valid :=
    ⟨by decide, by decide, by intro s hs; simp at hs⟩
  have hlt : (JTime.mk 9 0 none).instant < (JTime.mk 14 0 none).instant := by
    decide
  have hws : isSunday sunDate = true := rfl
  exact ⟨hv1, hv2, hlt, hws,
    C2_sunday_classification _ _ hv1 hv2 hlt sunDate hws⟩

theorem upsertDaily_logs (st : DBState) (e d p u : JStr) :
    (upsertDaily st e d p u).logs = st.logs := by
  unfold upsertDaily
  split_ifs <;> rfl

theorem upsertDaily_uploads (st : DBState) (e d p u : JStr) :
    (upsertDaily st e d p u).uploads = st.uploads := by
  unfold upsertDaily
  split_ifs <;> rfl

theorem deleteDaily_logs (st : DBState) (e d : JStr) :
    (deleteDaily st e d).logs = st.logs := rfl

theorem reconcileDayDelete_logs (st : DBState) (k : JStr × JStr) :
    (reconcileDayDelete st k).logs = st.logs := by
  unfold reconcileDayDelete
  dsimp only
  split_ifs <;> simp [upsertDaily_logs, deleteDaily_logs]

theorem reconcileFold_logs (keys : List (JStr × JStr)) (st : DBState) :
    (keys.foldl reconcileDayDelete st).logs = st.logs := by
  induction keys generalizing st with
  | nil => rfl
  | cons k ks ih =>
    simp only [List.foldl_cons]
    rw [ih, reconcileDayDelete_logs]

theorem deleteUpload_ok_logs (st : DBState) (u : JStr) (st' : DBState) (n : Nat)
    (h : deleteUpload st u = .ok (st', n)) :
    st'.logs = st.logs.filter (fun row => !(row.uploadId = some u)) := by
  unfold deleteUpload at h
  dsimp only at h
  split_ifs at h
  · injection h with h'
    obtain rfl : st' = _ := congrArg Prod.fst h'.symm
    show (legacyApply _ _).logs = _
    simp only [legacyApply, reconcileFold_logs]
    rfl
  · injection h with h'
    obtain rfl : st' = _ := congrArg Prod.fst h'.symm
    simp only [reconcileFold_logs]
    rfl

/-- C9: deleting an upload id that does not exist in the `uploads`
table fails with the distinct `Upload not found` error (thrown inside
the transaction), and the rolled-back observable state is unchanged. -/
theorem C9_delete_unknown_upload_not_found
    (st : DBState) (u : JStr) (hne : u ≠ [])
    (habs : ∀ row ∈ st.uploads, row.uid ≠ u) :
    deleteUpload st u = .error .uploadNotFound ∧
    deleteUploadFinalState st u = st := by
  have hfilter : st.uploads.filter (fun r => !(r.uid = u)) = st.uploads := by
    rw [List.filter_eq_self]
    intro r hr
    simp [habs r hr]
  have herr : deleteUpload st u = .error .uploadNotFound := by
    unfold deleteUpload
    rw [if_neg hne]
    simp only [hfilter, if_pos rfl]
    simp
  refine ⟨herr, ?_⟩
  unfold deleteUploadFinalState
  rw [herr]

/-- C9 witness: deleting upload id `u` against the empty store. -/
theorem C9_delete_unknown_upload_not_found_witness :
    uidU ≠ [] ∧ (∀ row ∈ emptyDB.uploads, row.uid ≠ uidU) ∧
    (deleteUpload emptyDB uidU = .error .uploadNotFound ∧
     deleteUploadFinalState emptyDB uidU = emptyDB) := by
  have h1 : uidU ≠ [] := by decide
  have h2 : ∀ row ∈ emptyDB.uploads, row.uid ≠ uidU := by
    intro row hrow
    simp [emptyDB] at hrow
  exact ⟨h1, h2, C9_delete_unknown_upload_not_found emptyDB uidU h1 h2⟩

/-- C10: `INSERT OR IGNORE` on an existing `(employeeId, date, time)`
key leaves the store — in particular the existing row's `upload_id` —
entirely unchanged and reports no insertion (first upload wins), and
deleting a different upload `uB` never removes a punch row whose
`upload_id` is not `uB`. -/
theorem C10_duplicate_punch_first_upload_wins
    (st : DBState) (r : LogRow) (uB : JStr)
    (hr : r ∈ st.logs) (hne : r.uploadId ≠ some uB) :
    insertLogOrIgnore st r.empId r.date r.time (some uB) = (st, false) ∧
    (∀ st' n, deleteUpload st uB = .ok (st', n) → r ∈ st'.logs) := by
  constructor
  · have hhas : hasLog st.logs r.empId r.date r.time = true := by
      unfold hasLog
      rw [List.any_eq_true]
      exact ⟨r, hr, by simp⟩
    unfold insertLogOrIgnore
    rw [if_pos hhas]
  · intro st' n h
    rw [deleteUpload_ok_logs st uB st' n h]
    rw [List.mem_filter]
    exact ⟨hr, by simp [hne]⟩

/-- C10 witness: the punch `(E1, 2025-01-06, 09:00)` owned by upload
`u` survives a re-submission under upload `v` and the deletion of
upload `v`. -/
theorem C10_duplicate_punch_first_upload_wins_witness :
    (LogRow.mk empE1 dateJan6 t0900 (some uidU)) ∈ twoUploadDB.logs ∧
    (LogRow.mk empE1 dateJan6 t0900 (some uidU)).uploadId ≠ some uidV ∧
    (insertLogOrIgnore twoUploadDB empE1 dateJan6 t0900 (some uidV) = (twoUploadDB, false) ∧
     (∀ st' n, deleteUpload twoUploadDB uidV = .ok (st', n) →
        (LogRow.mk empE1 dateJan6 t0900 (some uidU)) ∈ st'.logs)) := by
  have h1 : (LogRow.mk empE1 dateJan6 t0900 (some uidU)) ∈ twoUploadDB.logs := by decide
  have h2 : (LogRow.mk empE1 dateJan6 t0900 (some uidU)).uploadId ≠ some uidV := by decide
  have h3 := C10_duplicate_punch_first_upload_wins twoUploadDB
    (LogRow.mk empE1 dateJan6 t0900 (some uidU)) uidV h1 h2
  exact ⟨h1, h2, by simpa [LogRow.mk] using h3⟩

theorem insertEmployeeOrIgnore_logs (st : DBState) (i nm : JStr) :
    (insertEmployeeOrIgnore st i nm).logs = st.logs := by
  unfold insertEmployeeOrIgnore
  split_ifs <;> rfl

theorem insertLogs_count_zero_iff (e d u : JStr) :
    ∀ (ts : List JStr) (st : DBState),
      ((insertLogs e d u st ts).2 = 0 ↔ ∀ t ∈ ts, hasLog st.logs e d t = true)
  | [], st => by simp [insertLogs]
  | t :: ts, st => by
    simp only [insertLogs]
    by_cases hh : hasLog st.logs e d t = true
    · have hins : insertLogOrIgnore st e d t (some u) = (st, false) := by
        unfold insertLogOrIgnore
        rw [if_pos hh]
      rw [hins]
      simp only [if_neg Bool.false_ne_true, Nat.zero_add]
      rw [insertLogs_count_zero_iff e d u ts st]
      constructor
      · intro hall t' ht'
        rcases List.mem_cons.mp ht' with rfl | hmem
        · exact hh
        · exact hall t' hmem
      · intro hall t' ht'
        exact hall t' (List.mem_cons_of_mem _ ht')
    · have hins : insertLogOrIgnore st e d t (some u) =
          ({ st with logs := st.logs ++ [⟨e, d, t, some u⟩] }, true) := by
        unfold insertLogOrIgnore
        rw [if_neg hh]
      rw [hins]
      constructor
      · intro habs
        simp at habs
      · intro hall
        exact absurd (hall t (by simp)) hh

/-- C5: for an ingested row whose employee id validates and whose date
normalizes, with `entries` the punch tokens surviving normalization
(unparseable tokens dropped one by one by the `filterMap`, the row
itself kept): if `entries` is empty the row increments only the
`recordsEmpty` counter; if some surviving punch is new for its
`(employeeId, date, time)` key the row increments only
`recordsInserted`; if every surviving punch already exists the row
increments only `recordsSkipped`. -/
theorem C5_row_counter_trichotomy (uploadId : JStr) (acc : IngestAcc) (r : CsvRow)
    (empId date : JStr)
    (hid : validateEmployeeId r.userId = some empId)
    (hdate : r.date.bind normalizeDate = some date) :
    (punchEntries r.punchRecords = [] →
       (processRow uploadId acc r).empty = acc.empty + 1 ∧
       (processRow uploadId acc r).inserted = acc.inserted ∧
       (processRow uploadId acc r).skipped = acc.skipped) ∧
    (punchEntries r.punchRecords ≠ [] →
       ((∃ t ∈ punchEntries r.punchRecords, hasLog acc.st.logs empId date t = false) →
          (processRow uploadId acc r).inserted = acc.inserted + 1 ∧
          (processRow uploadId acc r).skipped = acc.skipped ∧
          (processRow uploadId acc r).empty = acc.empty) ∧
       ((∀ t ∈ punchEntries r.punchRecords, hasLog acc.st.logs empId date t = true) →
          (processRow uploadId acc r).skipped = acc.skipped + 1 ∧
          (processRow uploadId acc r).inserted = acc.inserted ∧
          (processRow uploadId acc r).empty = acc.empty)) := by
  have hpr : processRow uploadId acc r =
      (let st1 := insertEmployeeOrIgnore acc.st empId (employeeNameLit ++ empId)
       let entries := punchEntries r.punchRecords
       if entries ≠ [] then
         let p := insertLogs empId date uploadId st1 entries
         if 0 < p.2 then
           { st := p.1, affected := addAffected acc.affected (empId, date),
             inserted := acc.inserted + 1, skipped := acc.skipped, empty := acc.empty }
         else
           { st := p.1, affected := addAffected acc.affected (empId, date),
             inserted := acc.inserted, skipped := acc.skipped + 1, empty := acc.empty }
       else { acc with st := st1, empty := acc.empty + 1 }) := by
    unfold processRow
    rw [hid, hdate]
  have hlogs1 : (insertEmployeeOrIgnore acc.st empId (employeeNameLit ++ empId)).logs
      = acc.st.logs := insertEmployeeOrIgnore_logs _ _ _
  constructor
  · intro hemp
    rw [hpr]
    dsimp only
    rw [if_neg (by simp [hemp])]
    exact ⟨rfl, rfl, rfl⟩
  · intro hne
    have hcount := insertLogs_count_zero_iff empId date uploadId
      (punchEntries r.punchRecords)
      (insertEmployeeOrIgnore acc.st empId (employeeNameLit ++ empId))
    rw [hlogs1] at hcount
    constructor
    · intro ⟨t, ht, hnew⟩
      have hpos : 0 < (insertLogs empId date uploadId
          (insertEmployeeOrIgnore acc.st empId (employeeNameLit ++ empId))
          (punchEntries r.punchRecords)).2 := by
        rcases Nat.eq_zero_or_pos (insertLogs empId date uploadId _ _).2 with hz | hp
        · exact absurd ((hcount.mp hz) t ht) (by simp [hnew])
        · exact hp
      rw [hpr]
      dsimp only
      rw [if_pos hne, if_pos hpos]
      exact ⟨rfl, rfl, rfl⟩
    · intro hall
      have hz : (insertLogs empId date uploadId
          (insertEmployeeOrIgnore acc.st empId (employeeNameLit ++ empId))
          (punchEntries r.punchRecords)).2 = 0 := hcount.mpr hall
      rw [hpr]
      dsimp only
      rw [if_pos hne, if_neg (by omega)]
      exact ⟨rfl, rfl, rfl⟩

/-- C5 witness: the row `E1, 2025-01-06, "09:00, 18:00"` against the
empty store — both punches are new, so the row counts as inserted. -/
theorem C5_row_counter_trichotomy_witness :
    validateEmployeeId rowE1.userId = some empE1 ∧
    rowE1.date.bind normalizeDate = some dateJan6 ∧
    punchEntries rowE1.punchRecords ≠ [] ∧
    (∃ t ∈ punchEntries rowE1.punchRecords,
       hasLog (IngestAcc.mk emptyDB [] 0 0 0).st.logs empE1 dateJan6 t = false) ∧
    ((processRow uidU (IngestAcc.mk emptyDB [] 0 0 0) rowE1).inserted = 0 + 1 ∧
     (processRow uidU (IngestAcc.mk emptyDB [] 0 0 0) rowE1).skipped = 0 ∧
     (processRow uidU (IngestAcc.mk emptyDB [] 0 0 0) rowE1).empty = 0) := by
  have h1 : validateEmployeeId rowE1.userId = some empE1 := by decide
  have h2 : rowE1.date.bind normalizeDate = some dateJan6 := by decide
  have h3 : punchEntries rowE1.punchRecords ≠ [] := by decide
  have h4 : ∃ t ∈ punchEntries rowE1.punchRecords,
      hasLog (IngestAcc.mk emptyDB [] 0 0 0).st.logs empE1 dateJan6 t = false := by
    refine ⟨t0900, by decide, by decide⟩
  exact ⟨h1, h2, h3, h4,
    ((C5_row_counter_trichotomy uidU (IngestAcc.mk emptyDB [] 0 0 0) rowE1
      empE1 dateJan6 h1 h2).2 h3).1 h4⟩

/-- C6: for a month strictly in the future the monthly summary iterates
over zero days and returns, for every known employee, an all-zero row
(`present`, `halfDay`, `absent`, `weeklyOff`, `woWorked` and
`totalPresent` all zero) without error; and for the current month the
day range is capped at today's day of month. -/
theorem C6_future_month_zero_report (employees : List (JStr × JStr))
    (daily : List DailyRow) (today : CivilDate) (ty tm : Nat)
    (hfut : today.year < (ty : Int) ∨ ((ty : Int) = today.year ∧ today.month < tm)) :
    reportLimitDay today ty tm = 0 ∧
    generateMonthlyReport employees daily today ty tm =
      employees.map (fun e => ⟨e.1, e.2, 0, 0, 0, 0, 0, 0⟩) ∧
    (∀ (today' : CivilDate) (ty' tm' : Nat), (ty' : Int) = today'.year →
       tm' = today'.month → reportLimitDay today' ty' tm' = today'.day) := by
  have hlimit : reportLimitDay today ty tm = 0 := by
    unfold reportLimitDay
    rw [if_neg (by rintro ⟨ha, hb⟩; rcases hfut with h | ⟨h1, h2⟩ <;> omega),
      if_pos hfut]
  refine ⟨hlimit, ?_, ?_⟩
  · unfold generateMonthlyReport
    rw [hlimit]
    apply List.map_congr_left
    intro e he
    dsimp only
    simp only [List.range', List.foldl_nil, MonthStats.mk.injEq]
    norm_num
  · intro today' ty' tm' h1 h2
    unfold reportLimitDay
    rw [if_pos ⟨h1, h2⟩]

/-- C6 witness: the March 2025 report requested on 2025-01-15 yields
the all-zero row for the one known employee. -/
theorem C6_future_month_zero_report_witness :
    ((CivilDate.mk 2025 1 15).year < ((2025 : Nat) : Int) ∨
      (((2025 : Nat) : Int) = (CivilDate.mk 2025 1 15).year ∧
        (CivilDate.mk 2025 1 15).month < 3)) ∧
    (reportLimitDay (CivilDate.mk 2025 1 15) 2025 3 = 0 ∧
     generateMonthlyReport [(empE1, empE1)] [] (CivilDate.mk 2025 1 15) 2025 3 =
       [(empE1, empE1)].map (fun e => ⟨e.1, e.2, 0, 0, 0, 0, 0, 0⟩) ∧
     (∀ (today' : CivilDate) (ty' tm' : Nat), (ty' : Int) = today'.year →
        tm' = today'.month → reportLimitDay today' ty' tm' = today'.day)) := by
  have hfut : (CivilDate.mk 2025 1 15).year < ((2025 : Nat) : Int) ∨
      (((2025 : Nat) : Int) = (CivilDate.mk 2025 1 15).year ∧
        (CivilDate.mk 2025 1 15).month < 3) := by
    right
    exact ⟨by norm_num, by norm_num⟩
  exact ⟨hfut, C6_future_month_zero_report [(empE1, empE1)] []
    (CivilDate.mk 2025 1 15) 2025 3 hfut⟩

theorem normalizeTime_inv (s n : JStr) (h : normalizeTime s = some n) :
    ∃ hh mm so, n = JTime.render ⟨hh, mm, so⟩ ∧
      hh ≤ 23 ∧ mm ≤ 59 ∧ so.getD 0 ≤ 59 := by
  unfold normalizeTime at h
  split_ifs at h
  rcases htp : timePat ((jsTrim s).map (fun c => if c = 46 then 58 else c)) with _ | ⟨hh, mm, so⟩
  · rw [htp] at h
    cases h
  · rw [htp] at h
    dsimp only at h
    split_ifs at h with hcond
    injection h with h'
    exact ⟨hh, mm, so, h'.symm, hcond.1, hcond.2.1, hcond.2.2⟩

theorem valid_of_bounds (hh mm : Nat) (so : Option Nat)
    (h1 : hh ≤ 23) (h2 : mm ≤ 59) (h3 : so.getD 0 ≤ 59) :
    (JTime.mk hh mm so).Valid := by
  refine ⟨show hh < 24 by omega, show mm < 60 by omega, ?_⟩
  intro s hs
  rcases so with _ | v
  · simp at hs
  · simp at hs
    subst hs
    simp at h3
    omega

/-- C8: for every time string accepted by `normalizeTime`,
`timeToMinutes` of `dateTimeUtils.js` returns minutes-since-midnight as
a rational `h * 60 + m + s / 60`, preserving the fractional minutes
contributed by the seconds component; in particular
`timeToMinutes("09:00:30") = 540.5`. -/
theorem C8_timeToMinutes_fractional :
    (∀ s n : JStr, normalizeTime s = some n →
       ∃ hh mm so, n = JTime.render ⟨hh, mm, so⟩ ∧
         hh ≤ 23 ∧ mm ≤ 59 ∧ so.getD 0 ≤ 59 ∧
         timeToMinutesUtil s =
           some ((hh : ℚ) * 60 + (mm : ℚ) + ((so.getD 0 : Nat) : ℚ) / 60)) ∧
    timeToMinutesUtil t090030 = some ((1081 : ℚ) / 2) := by
  constructor
  · intro s n h
    obtain ⟨hh, mm, so, hn, hb1, hb2, hb3⟩ := normalizeTime_inv s n h
    have hv : (JTime.mk hh mm so).Valid := valid_of_bounds hh mm so hb1 hb2 hb3
    refine ⟨hh, mm, so, hn, hb1, hb2, hb3, ?_⟩
    unfold timeToMinutesUtil
    rw [h]
    dsimp only
    rw [hn]
    rcases so with _ | sec
    · rw [splitColon_render_none _ hv rfl]
      dsimp only
      simp only [jsNumberNat_twoDigit _ (by omega : hh < 100),
        jsNumberNat_twoDigit _ (by omega : mm < 100)]
      simp
    · rw [splitColon_render_some _ hv sec rfl]
      dsimp only
      simp only [jsNumberNat_twoDigit _ (by omega : hh < 100),
        jsNumberNat_twoDigit _ (by omega : mm < 100)]
      have hsec : sec < 100 := by simp at hb3; omega
      simp only [jsNumberNat_twoDigit _ hsec]
      simp
  · have h : timeToMinutesUtil t090030 =
        some (((9 : Nat) : ℚ) * 60 + ((0 : Nat) : ℚ) + ((30 : Nat) : ℚ) / 60) := rfl
    rw [h]
    norm_num

/-- C8 witness: the theorem applied at the string `09:00:30`. -/
theorem C8_timeToMinutes_fractional_witness :
    normalizeTime t090030 = some t090030 ∧
    (∃ hh mm so, t090030 = JTime.render ⟨hh, mm, so⟩ ∧
       hh ≤ 23 ∧ mm ≤ 59 ∧ so.getD 0 ≤ 59 ∧
       timeToMinutesUtil t090030 =
         some ((hh : ℚ) * 60 + (mm : ℚ) + ((so.getD 0 : Nat) : ℚ) / 60)) := by
  have h : normalizeTime t090030 = some t090030 := by decide
  exact ⟨h, C8_timeToMinutes_fractional.1 t090030 t090030 h⟩

theorem find?_map_invariant {α : Type} (f : α → α) (p : α → Bool) :
    ∀ (l : List α), (∀ x ∈ l, p (f x) = p x) → (∀ x ∈ l, p x = true → f x = x) →
      (l.map f).find? p = l.find? p
  | [], _, _ => rfl
  | x :: l, hp, hid => by
    simp only [List.map_cons, List.find?]
    by_cases hx : p x = true
    · rw [hid x (by simp) hx, hx]
    · have : p (f x) = false := by
        rw [hp x (by simp)]
        simpa using hx
      rw [this, (by simpa using hx : p x = false)]
      exact find?_map_invariant f p l (fun y hy => hp y (by simp [hy]))
        (fun y hy => hid y (by simp [hy]))

theorem find?_append_nomatch {α : Type} (p : α → Bool) (x : α) :
    ∀ (l : List α), p x = false → (l ++ [x]).find? p = l.find? p
  | [], hx => by simp [List.find?, hx]
  | y :: l, hx => by
    simp only [List.cons_append, List.find?]
    by_cases hy : p y = true
    · rw [hy]
    · rw [(by simpa using hy : p y = false)]
      exact find?_append_nomatch p x l hx

theorem find?_filter_invariant {α : Type} (p q : α → Bool) :
    ∀ (l : List α), (∀ x ∈ l, p x = true → q x = true) →
      (l.filter q).find? p = l.find? p
  | [], _ => rfl
  | x :: l, h => by
    by_cases hq : q x = true
    · rw [List.filter_cons_of_pos hq]
      simp only [List.find?]
      by_cases hx : p x = true
      · rw [hx]
      · rw [(by simpa using hx : p x = false)]
        exact find?_filter_invariant p q l (fun y hy => h y (by simp [hy]))
    · rw [List.filter_cons_of_neg (by simpa using hq)]
      have hx : p x = false := by
        rcases Bool.eq_false_or_eq_true (p x) with h' | h'
        · exact absurd (h x (by simp) h') hq
        · exact h'
      simp only [List.find?, hx]
      exact find?_filter_invariant p q l (fun y hy => h y (by simp [hy]))

theorem find?_map_update_found (e d p u : JStr) :
    ∀ (l : List DailyRow),
      l.any (fun r => r.empId = e && r.date = d) = true →
      (l.map (fun r => if r.empId = e && r.date = d then
          { r with punches := p, uploadIds := u } else r)).find?
        (fun r => r.empId = e && r.date = d) = some ⟨e, d, p, u⟩
  | [], hex => by simp at hex
  | r :: l, hex => by
    simp only [List.map_cons]
    by_cases hr : (decide (r.empId = e) && decide (r.date = d)) = true
    · have h1 : r.empId = e := by simpa using (Bool.and_eq_true _ _ |>.mp hr).1
      have h2 : r.date = d := by simpa using (Bool.and_eq_true _ _ |>.mp hr).2
      simp only [hr, if_true]
      rw [List.find?_cons_of_pos _ (by simp [h1, h2])]
      simp [h1, h2]
    · simp only [hr, if_false, Bool.false_eq_true]
      rw [List.find?_cons_of_neg _ (by simpa using hr)]
      have hex' : l.any (fun r => r.empId = e && r.date = d) = true := by
        rcases List.any_eq_true.mp hex with ⟨y, hy, hpy⟩
        rcases List.mem_cons.mp hy with rfl | hmem
        · exact absurd hpy hr
        · exact List.any_eq_true.mpr ⟨y, hmem, hpy⟩
      exact find?_map_update_found e d p u l hex'

theorem lookupDaily_upsert_self (st : DBState) (e d p u : JStr) :
    lookupDaily (upsertDaily st e d p u) e d = some ⟨e, d, p, u⟩ := by
  unfold lookupDaily upsertDaily
  split_ifs with hex
  · exact find?_map_update_found e d p u st.daily hex
  · have hnone : st.daily.find? (fun r => r.empId = e && r.date = d) = none := by
      rw [List.find?_eq_none]
      intro x hx
      intro hpx
      exact hex (List.any_eq_true.mpr ⟨x, hx, hpx⟩)
    rw [List.find?_append, hnone]
    simp [List.find?]

theorem lookupDaily_upsert_other (st : DBState) (e d p u e' d' : JStr)
    (hne : ¬(e' = e ∧ d' = d)) :
    lookupDaily (upsertDaily st e d p u) e' d' = lookupDaily st e' d' := by
  unfold lookupDaily upsertDaily
  split_ifs with hex
  · apply find?_map_invariant
    · intro x hx
      by_cases hm : (decide (x.empId = e) && decide (x.date = d)) = true
      · rw [if_pos hm]
      · rw [if_neg hm]
    · intro x hx hpx
      have h1 : x.empId = e' := by simpa using (Bool.and_eq_true _ _ |>.mp hpx).1
      have h2 : x.date = d' := by simpa using (Bool.and_eq_true _ _ |>.mp hpx).2
      rw [if_neg]
      intro hm
      have h3 : x.empId = e := by simpa using (Bool.and_eq_true _ _ |>.mp hm).1
      have h4 : x.date = d := by simpa using (Bool.and_eq_true _ _ |>.mp hm).2
      exact hne ⟨h1 ▸ h3, h2 ▸ h4⟩
  · apply find?_append_nomatch
    by_cases h1 : e = e'
    · have h2 : ¬ d = d' := fun h2 => hne ⟨h1.symm, h2.symm⟩
      simp [h2]
    · simp [h1]

theorem lookupDaily_deleteDaily_self (st : DBState) (e d : JStr) :
    lookupDaily (deleteDaily st e d) e d = none := by
  unfold lookupDaily deleteDaily
  rw [List.find?_eq_none]
  intro x hx hpx
  have := (List.mem_filter.mp hx).2
  rw [hpx] at this
  simp at this

theorem lookupDaily_deleteDaily_other (st : DBState) (e d e' d' : JStr)
    (hne : ¬(e' = e ∧ d' = d)) :
    lookupDaily (deleteDaily st e d) e' d' = lookupDaily st e' d' := by
  unfold lookupDaily deleteDaily
  apply find?_filter_invariant
  intro x hx hpx
  have h1 : x.empId = e' := by simpa using (Bool.and_eq_true _ _ |>.mp hpx).1
  have h2 : x.date = d' := by simpa using (Bool.and_eq_true _ _ |>.mp hpx).2
  have hfalse : (decide (x.empId = e) && decide (x.date = d)) = false := by
    rcases Bool.eq_false_or_eq_true (decide (x.empId = e) && decide (x.date = d)) with ht | hf
    · exfalso
      have h3 : x.empId = e := by simpa using (Bool.and_eq_true _ _ |>.mp ht).1
      have h4 : x.date = d := by simpa using (Bool.and_eq_true _ _ |>.mp ht).2
      exact hne ⟨h1 ▸ h3, h2 ▸ h4⟩
    · exact hf
  simp [hfalse]

theorem foldl_logs_invariant (f : DBState → (JStr × JStr) → DBState)
    (hlogs : ∀ (s : DBState) (k : JStr × JStr), (f s k).logs = s.logs) :
    ∀ (keys : List (JStr × JStr)) (st : DBState),
      (keys.foldl f st).logs = st.logs
  | [], st => rfl
  | k :: ks, st => by
    simp only [List.foldl_cons]
    rw [foldl_logs_invariant f hlogs ks (f st k), hlogs]

theorem foldl_lookup_frame (f : DBState → (JStr × JStr) → DBState)
    (hframe : ∀ (s : DBState) (k k' : JStr × JStr), ¬(k'.1 = k.1 ∧ k'.2 = k.2) →
      lookupDaily (f s k) k'.1 k'.2 = lookupDaily s k'.1 k'.2) :
    ∀ (keys : List (JStr × JStr)) (st : DBState) (k : JStr × JStr),
      (∀ k' ∈ keys, k' ≠ k) →
      lookupDaily (keys.foldl f st) k.1 k.2 = lookupDaily st k.1 k.2
  | [], st, k, _ => rfl
  | k0 :: ks, st, k, hall => by
    simp only [List.foldl_cons]
    rw [foldl_lookup_frame f hframe ks (f st k0) k
      (fun k' hk' => hall k' (List.mem_cons_of_mem _ hk'))]
    apply hframe
    intro ⟨ha, hb⟩
    exact hall k0 (by simp) (Prod.ext ha hb).symm

theorem foldl_lookup_spec (f : DBState → (JStr × JStr) → DBState)
    (spec : List LogRow → (JStr × JStr) → Option DailyRow)
    (P : List LogRow → (JStr × JStr) → Prop)
    (hlogs : ∀ (s : DBState) (k : JStr × JStr), (f s k).logs = s.logs)
    (hself : ∀ (s : DBState) (k : JStr × JStr),
      P s.logs k → lookupDaily (f s k) k.1 k.2 = spec s.logs k)
    (hframe : ∀ (s : DBState) (k k' : JStr × JStr), ¬(k'.1 = k.1 ∧ k'.2 = k.2) →
      lookupDaily (f s k) k'.1 k'.2 = lookupDaily s k'.1 k'.2) :
    ∀ (keys : List (JStr × JStr)) (st : DBState) (k : JStr × JStr),
      keys.Nodup → k ∈ keys → P st.logs k →
      lookupDaily (keys.foldl f st) k.1 k.2 = spec st.logs k
  | [], st, k, _, hk, _ => by simp at hk
  | k0 :: ks, st, k, hnd, hk, hP => by
    simp only [List.foldl_cons]
    rcases List.mem_cons.mp hk with rfl | hmem
    · rw [foldl_lookup_frame f hframe ks (f st k) k
        (fun k' hk' => fun he => (List.nodup_cons.mp hnd).1 (he ▸ hk'))]
      exact hself st k hP
    · have hP' : P (f st k0).logs k := by rw [hlogs]; exact hP
      rw [foldl_lookup_spec f spec P hlogs hself hframe ks (f st k0) k
        (List.nodup_cons.mp hnd).2 hmem hP']
      rw [hlogs]

theorem dedupFirst_nodup_aux {α : Type} [DecidableEq α] :
    ∀ (l : List α) (seen : List α),
      (dedupFirst seen l).Nodup ∧ ∀ x ∈ dedupFirst seen l, x ∉ seen
  | [], seen => by simp [dedupFirst]
  | x :: l, seen => by
    by_cases hx : x ∈ seen
    · have ih := dedupFirst_nodup_aux l seen
      simpa [dedupFirst, hx] using ih
    · have ih := dedupFirst_nodup_aux l (x :: seen)
      simp only [dedupFirst, if_neg hx]
      constructor
      · rw [List.nodup_cons]
        exact ⟨fun hmem => (ih.2 x hmem) (by simp), ih.1⟩
      · intro y hy
        rcases List.mem_cons.mp hy with rfl | hmem
        · exact hx
        · intro hseen
          exact (ih.2 y hmem) (List.mem_cons_of_mem _ hseen)

theorem dedupFirst_nodup {α : Type} [DecidableEq α] (l : List α) :
    (dedupFirst [] l).Nodup := (dedupFirst_nodup_aux l []).1

theorem insertLogSorted_ne_nil (x : LogRow) (l : List LogRow) :
    insertLogSorted x l ≠ [] := by
  cases l with
  | nil => simp [insertLogSorted]
  | cons y ys =>
    simp only [insertLogSorted]
    split_ifs <;> simp

theorem sortLogsByTime_ne_nil (l : List LogRow) (h : l ≠ []) :
    sortLogsByTime l ≠ [] := by
  cases l with
  | nil => exact absurd rfl h
  | cons x xs =>
    simp only [sortLogsByTime]
    exact insertLogSorted_ne_nil x (sortLogsByTime xs)

theorem rebuildDayIngest_logs (st : DBState) (k : JStr × JStr) :
    (rebuildDayIngest st k).logs = st.logs := by
  unfold rebuildDayIngest
  dsimp only
  split_ifs <;> simp [upsertDaily_logs]

theorem rebuildDayIngest_self (st : DBState) (k : JStr × JStr)
    (hP : dayLogs st.logs k.1 k.2 ≠ []) :
    lookupDaily (rebuildDayIngest st k) k.1 k.2 =
      some ⟨k.1, k.2, rebuildPunchesStr (dayLogs st.logs k.1 k.2),
            rebuildUploadIdsStr (dayLogs st.logs k.1 k.2)⟩ := by
  unfold rebuildDayIngest
  dsimp only
  rw [if_pos hP]
  exact lookupDaily_upsert_self _ _ _ _ _

theorem rebuildDayIngest_frame (st : DBState) (k k' : JStr × JStr)
    (hne : ¬(k'.1 = k.1 ∧ k'.2 = k.2)) :
    lookupDaily (rebuildDayIngest st k) k'.1 k'.2 = lookupDaily st k'.1 k'.2 := by
  unfold rebuildDayIngest
  dsimp only
  split_ifs with hd
  · exact lookupDaily_upsert_other _ _ _ _ _ _ _ hne
  · rfl

theorem reconcileDayDelete_self (st : DBState) (k : JStr × JStr) :
    lookupDaily (reconcileDayDelete st k) k.1 k.2 =
      (if dayLogs st.logs k.1 k.2 ≠ [] then
        some ⟨k.1, k.2, rebuildPunchesStr (dayLogs st.logs k.1 k.2),
              rebuildUploadIdsStr (dayLogs st.logs k.1 k.2)⟩
       else none) := by
  unfold reconcileDayDelete
  dsimp only
  split_ifs with hd
  · exact lookupDaily_upsert_self _ _ _ _ _
  · exact lookupDaily_deleteDaily_self _ _ _

theorem reconcileDayDelete_frame (st : DBState) (k k' : JStr × JStr)
    (hne : ¬(k'.1 = k.1 ∧ k'.2 = k.2)) :
    lookupDaily (reconcileDayDelete st k) k'.1 k'.2 = lookupDaily st k'.1 k'.2 := by
  unfold reconcileDayDelete
  dsimp only
  split_ifs with hd
  · exact lookupDaily_upsert_other _ _ _ _ _ _ _ hne
  · exact lookupDaily_deleteDaily_other _ _ _ _ _ hne

theorem affectedPairs_eq_nil (st : DBState) (u : JStr)
    (hz : st.logs.filter (fun r => r.uploadId = some u) = []) :
    affectedPairs st u = [] := by
  unfold affectedPairs
  rw [hz]
  rfl

theorem filter_negated_tagged_nil (u : JStr) : ∀ (l : List LogRow),
    (l.filter (fun r => !(r.uploadId = some u))).filter
      (fun r => r.uploadId = some u) = []
  | [] => rfl
  | r :: l => by
    by_cases hr : r.uploadId = some u
    · rw [List.filter_cons_of_neg (by simpa using hr)]
      exact filter_negated_tagged_nil u l
    · rw [List.filter_cons_of_pos (by simpa using hr),
        List.filter_cons_of_neg (by simpa using hr)]
      exact filter_negated_tagged_nil u l

theorem deleteStage1_tagged_nil (st : DBState) (u : JStr) :
    (deleteStage1 st u).logs.filter (fun r => r.uploadId = some u) = [] :=
  filter_negated_tagged_nil u st.logs

theorem splitComma_sep_cons (b : JStr) : splitComma (44 :: b) = [] :: splitComma b := by
  simp [splitComma]

theorem splitComma_no44 : ∀ (s : JStr), (∀ c ∈ s, c ≠ 44) → splitComma s = [s]
  | [], _ => rfl
  | c :: rest, h => by
    have hc : c ≠ 44 := h c (by simp)
    have ih := splitComma_no44 rest (fun x hx => h x (List.mem_cons_of_mem _ hx))
    simp only [splitComma]
    rw [if_neg hc, ih]

theorem splitComma_append : ∀ (a b : JStr), (∀ c ∈ a, c ≠ 44) →
    splitComma (a ++ 44 :: b) = a :: splitComma b
  | [], b, _ => by simpa using splitComma_sep_cons b
  | c :: a', b, h => by
    have hc : c ≠ 44 := h c (by simp)
    have ih := splitComma_append a' b (fun x hx => h x (List.mem_cons_of_mem _ hx))
    simp only [List.cons_append, splitComma]
    rw [if_neg hc]
    simp only [List.append_eq]
    rw [ih]

theorem splitComma_joinComma : ∀ (l : List JStr), (∀ s ∈ l, ∀ c ∈ s, c ≠ 44) →
    l ≠ [] → splitComma (joinComma l) = l
  | [], _, hne => absurd rfl hne
  | [a], h, _ => splitComma_no44 a (h a (by simp))
  | a :: b :: r, h, _ => by
    have ih := splitComma_joinComma (b :: r) (fun s hs => h s (List.mem_cons_of_mem _ hs))
      (by simp)
    have hj : joinComma (a :: b :: r) = a ++ 44 :: joinComma (b :: r) := by
      simp [joinComma, joinSep, List.append_assoc]
    rw [hj, splitComma_append a _ (h a (by simp)), ih]

theorem legacyStrip_fixed (u : JStr) (l : List JStr) (hl : l ≠ [])
    (hcf : ∀ s ∈ l, ∀ c ∈ s, c ≠ 44) (hne : ∀ s ∈ l, s ≠ u) :
    legacyStrip u (joinComma l) = joinComma l := by
  unfold legacyStrip
  rw [splitComma_joinComma l hcf hl,
    List.filter_eq_self.mpr (fun s hs => by simpa using hne s hs)]

theorem find?_map_comm {α : Type} (f : α → α) (p : α → Bool)
    (hp : ∀ x, p (f x) = p x) :
    ∀ (l : List α), (l.map f).find? p = (l.find? p).map f
  | [] => rfl
  | x :: l => by
    by_cases hx : p x = true
    · rw [List.map_cons, List.find?_cons_of_pos _ ((hp x).trans hx),
        List.find?_cons_of_pos _ hx]
      rfl
    · rw [List.map_cons, List.find?_cons_of_neg _ (by rw [hp x]; simpa using hx),
        List.find?_cons_of_neg _ (by simpa using hx)]
      exact find?_map_comm f p hp l

theorem lookupDaily_legacyApply (st : DBState) (u e d : JStr) :
    lookupDaily (legacyApply st u) e d =
      (lookupDaily st e d).map (fun r =>
        if containsSeq u r.uploadIds then
          { r with uploadIds := legacyStrip u r.uploadIds }
        else r) := by
  unfold lookupDaily legacyApply
  exact find?_map_comm _ _ (fun r => by
    by_cases hc : containsSeq u r.uploadIds <;> simp [hc]) st.daily

theorem mem_insertLogSorted (x y : LogRow) :
    ∀ (l : List LogRow), x ∈ insertLogSorted y l → x = y ∨ x ∈ l
  | [], hx => Or.inl (List.mem_singleton.mp hx)
  | z :: l, hx => by
    simp only [insertLogSorted] at hx
    split_ifs at hx with hz
    · rcases List.mem_cons.mp hx with rfl | hx
      · exact Or.inr (List.mem_cons_self _ _)
      · rcases mem_insertLogSorted x y l hx with h | h
        · exact Or.inl h
        · exact Or.inr (List.mem_cons_of_mem _ h)
    · rcases List.mem_cons.mp hx with rfl | hx
      · exact Or.inl rfl
      · exact Or.inr hx

theorem mem_sortLogsByTime (x : LogRow) :
    ∀ (l : List LogRow), x ∈ sortLogsByTime l → x ∈ l
  | [], hx => absurd hx (List.not_mem_nil x)
  | y :: l, hx => by
    simp only [sortLogsByTime] at hx
    rcases mem_insertLogSorted x y (sortLogsByTime l) hx with rfl | h
    · exact List.mem_cons_self _ _
    · exact List.mem_cons_of_mem _ (mem_sortLogsByTime x l h)

theorem mem_dayLogs (r : LogRow) (logs : List LogRow) (e d : JStr)
    (h : r ∈ dayLogs logs e d) : r ∈ logs :=
  (List.mem_filter.mp (mem_sortLogsByTime r _ h)).1

theorem mem_dedupFirst {α : Type} [DecidableEq α] :
    ∀ (l seen : List α) (x : α), x ∈ dedupFirst seen l → x ∈ l
  | [], _, x, hx => absurd hx (List.not_mem_nil x)
  | y :: l, seen, x, hx => by
    by_cases hy : y ∈ seen
    · simp only [dedupFirst, if_pos hy] at hx
      exact List.mem_cons_of_mem _ (mem_dedupFirst l seen x hx)
    · simp only [dedupFirst, if_neg hy] at hx
      rcases List.mem_cons.mp hx with rfl | hx
      · exact List.mem_cons_self _ _
      · exact List.mem_cons_of_mem _ (mem_dedupFirst l (y :: seen) x hx)

theorem mem_presentUploadIds (v : JStr) (logs : List LogRow)
    (hv : v ∈ presentUploadIds logs) :
    ∃ r ∈ logs, r.uploadId = some v ∧ v ≠ [] := by
  unfold presentUploadIds at hv
  obtain ⟨r, hr, hrv⟩ := List.mem_filterMap.mp hv
  refine ⟨r, hr, ?_⟩
  rcases hru : r.uploadId with _ | w
  · rw [hru] at hrv
    simp at hrv
  · rw [hru] at hrv
    by_cases hw : w = []
    · simp [hw] at hrv
    · simp only [if_neg hw] at hrv
      injection hrv with hwv
      subst hwv
      exact ⟨rfl, hw⟩

theorem deleteUpload_ok_inv (st : DBState) (u : JStr) (st' : DBState) (n : Nat)
    (h : deleteUpload st u = .ok (st', n)) :
    u ≠ [] ∧
    st' = legacyApply
      ((affectedPairs st u).foldl reconcileDayDelete (deleteStage1 st u)) u ∧
    n = (((affectedPairs st u).foldl reconcileDayDelete (deleteStage1 st u)).daily.filter
        (fun r => containsSeq u r.uploadIds)).length := by
  unfold deleteUpload at h
  dsimp only at h
  split_ifs at h with h1 h2 h3
  · injection h with h'
    refine ⟨h1, (congrArg Prod.fst h').symm, ?_⟩
    have hsnd : n =
        ((deleteStage1 st u).logs.filter (fun r => r.uploadId = some u)).length +
          (((affectedPairs st u).foldl reconcileDayDelete (deleteStage1 st u)).daily.filter
            (fun r => containsSeq u r.uploadIds)).length := (congrArg Prod.snd h').symm
    rw [hsnd, deleteStage1_tagged_nil st u]
    simp
  · rw [deleteStage1_tagged_nil st u] at h3
    exact absurd rfl h3

/-- C4 (amended): for every successful `deleteUpload(U)` the punch rows
removed are exactly those tagged with `U` — removed by the
`ON DELETE CASCADE` on `attendance_logs.upload_id` (with
`foreign_keys = ON`) when the `uploads` row is deleted, so the
subsequent explicit `DELETE FROM attendance_logs WHERE upload_id = ?`
matches nothing and its `changes` count (`logsDeletedCount`) is 0 —
each affected `(employeeId, date)` pair is re-derived on the final
state (the cache row rebuilt from the remaining punches when any
remain, deleted when none remain), the legacy fallback therefore
always runs, and the returned count is the number of cache rows whose
`upload_ids` column still mentioned `U` after reconciliation (the
legacy-strip count; 0 for an ordinary upload whose punches were all
tagged), not the number of punch rows removed.  The hypothesis that
upload ids contain no comma holds of the generated UUIDs and is what
makes the comma-joined `upload_ids` cache column parseable. -/
theorem C4_delete_upload_reconciliation (st : DBState) (u : JStr)
    (st' : DBState) (n : Nat)
    (hids : ∀ r ∈ st.logs, ∀ v ∈ r.uploadId, ∀ c ∈ v, c ≠ 44)
    (h : deleteUpload st u = .ok (st', n)) :
    st'.logs = st.logs.filter (fun row => !(row.uploadId = some u)) ∧
    ((deleteStage1 st u).logs.filter (fun r => r.uploadId = some u)).length = 0 ∧
    (∀ k ∈ affectedPairs st u,
       lookupDaily st' k.1 k.2 =
         (if dayLogs st'.logs k.1 k.2 ≠ [] then
            some ⟨k.1, k.2, rebuildPunchesStr (dayLogs st'.logs k.1 k.2),
                  rebuildUploadIdsStr (dayLogs st'.logs k.1 k.2)⟩
          else none)) ∧
    n = (((affectedPairs st u).foldl reconcileDayDelete (deleteStage1 st u)).daily.filter
        (fun r => containsSeq u r.uploadIds)).length := by
  obtain ⟨hu, hst, hn⟩ := deleteUpload_ok_inv st u st' n h
  have hlogs' : st'.logs = st.logs.filter (fun row => !(row.uploadId = some u)) :=
    deleteUpload_ok_logs st u st' n h
  have hsame : st'.logs = (deleteStage1 st u).logs := hlogs'
  refine ⟨hlogs', by rw [deleteStage1_tagged_nil]; rfl, ?_, hn⟩
  intro k hk
  rw [hsame, hst, lookupDaily_legacyApply]
  rw [foldl_lookup_spec reconcileDayDelete
    (fun logs k => if dayLogs logs k.1 k.2 ≠ [] then
       some ⟨k.1, k.2, rebuildPunchesStr (dayLogs logs k.1 k.2),
             rebuildUploadIdsStr (dayLogs logs k.1 k.2)⟩
     else none)
    (fun _ _ => True)
    reconcileDayDelete_logs
    (fun s k _ => reconcileDayDelete_self s k)
    reconcileDayDelete_frame
    (affectedPairs st u) (deleteStage1 st u) k
    (dedupFirst_nodup _) hk trivial]
  by_cases hday : dayLogs (deleteStage1 st u).logs k.1 k.2 ≠ []
  · rw [if_pos hday]
    have helem : ∀ i ∈ dedupFirst []
        (presentUploadIds (dayLogs (deleteStage1 st u).logs k.1 k.2)),
        (∀ c ∈ i, c ≠ 44) ∧ i ≠ u := by
      intro i hi
      have hip := mem_dedupFirst _ _ i hi
      obtain ⟨r, hr, hru, hine⟩ := mem_presentUploadIds i _ hip
      have hrlogs : r ∈ st.logs.filter (fun row => !(row.uploadId = some u)) :=
        mem_dayLogs r _ k.1 k.2 hr
      have hrf := List.mem_filter.mp hrlogs
      refine ⟨hids r hrf.1 i hru, ?_⟩
      intro hiu
      have hr2 : r.uploadId = some u := by rw [hru, hiu]
      simpa [hr2] using hrf.2
    have hfix : (if containsSeq u
          (⟨k.1, k.2, rebuildPunchesStr (dayLogs (deleteStage1 st u).logs k.1 k.2),
            rebuildUploadIdsStr (dayLogs (deleteStage1 st u).logs k.1 k.2)⟩ :
            DailyRow).uploadIds then
          { (⟨k.1, k.2, rebuildPunchesStr (dayLogs (deleteStage1 st u).logs k.1 k.2),
              rebuildUploadIdsStr (dayLogs (deleteStage1 st u).logs k.1 k.2)⟩ :
              DailyRow) with
            uploadIds := legacyStrip u
              (⟨k.1, k.2, rebuildPunchesStr (dayLogs (deleteStage1 st u).logs k.1 k.2),
                rebuildUploadIdsStr (dayLogs (deleteStage1 st u).logs k.1 k.2)⟩ :
                DailyRow).uploadIds }
        else
          (⟨k.1, k.2, rebuildPunchesStr (dayLogs (deleteStage1 st u).logs k.1 k.2),
            rebuildUploadIdsStr (dayLogs (deleteStage1 st u).logs k.1 k.2)⟩ :
            DailyRow)) =
        (⟨k.1, k.2, rebuildPunchesStr (dayLogs (deleteStage1 st u).logs k.1 k.2),
          rebuildUploadIdsStr (dayLogs (deleteStage1 st u).logs k.1 k.2)⟩ :
          DailyRow) := by
      dsimp only
      by_cases hcs : containsSeq u
          (rebuildUploadIdsStr (dayLogs (deleteStage1 st u).logs k.1 k.2)) = true
      · rw [if_pos hcs]
        by_cases hLnil : dedupFirst []
            (presentUploadIds (dayLogs (deleteStage1 st u).logs k.1 k.2)) = []
        · exfalso
          rw [show rebuildUploadIdsStr (dayLogs (deleteStage1 st u).logs k.1 k.2) =
              joinComma (dedupFirst []
                (presentUploadIds (dayLogs (deleteStage1 st u).logs k.1 k.2)))
              from rfl, hLnil] at hcs
          exact hu (by simpa [containsSeq, joinComma, joinSep] using hcs)
        · rw [show rebuildUploadIdsStr (dayLogs (deleteStage1 st u).logs k.1 k.2) =
              joinComma (dedupFirst []
                (presentUploadIds (dayLogs (deleteStage1 st u).logs k.1 k.2)))
              from rfl,
            legacyStrip_fixed u _ hLnil (fun s hs => (helem s hs).1)
              (fun s hs => (helem s hs).2)]
      · rw [if_neg hcs]
    rw [Option.map_some', hfix]
  · rw [if_neg hday]
    rfl

/-- C4 counterexample: the reported count is not the count of raw punch
rows removed, in either direction.  On the legacy store (no punch rows,
one cache row mentioning upload `u`) the handler removes zero punch
rows yet reports 1; on the store where upload `u` owns the one punch of
`(E1, 2025-01-06)` the cascade removes that punch row (one row removed)
yet the handler reports 0, because the explicit `DELETE` runs after the
`ON DELETE CASCADE` and counts nothing. -/
theorem C4_legacy_count_counterexample :
    (deleteUpload legacyDB uidU =
      .ok (⟨[(empE1, empE1)], [], [], [⟨empE1, dateJan6, t0900, []⟩]⟩, 1) ∧
     legacyDB.logs = []) ∧
    (deleteUpload twoUploadDB uidU =
      .ok (⟨[(empE1, empE1)], [], [⟨uidV, fileF, 0, 0, 0⟩], []⟩, 0) ∧
     (twoUploadDB.logs.filter (fun r => r.uploadId = some uidU)).length = 1) :=
  ⟨⟨rfl, rfl⟩, ⟨rfl, rfl⟩⟩

/-- C4 witness: the amended theorem applied to the deletion of upload
`u` from a store where `u` owns the only punch of `(E1, 2025-01-06)`:
the punch row is removed by the cascade, the day's cache row is
deleted, and the reported count is 0. -/
theorem C4_delete_upload_reconciliation_witness :
    (∀ r ∈ twoUploadDB.logs, ∀ v ∈ r.uploadId, ∀ c ∈ v, c ≠ 44) ∧
    deleteUpload twoUploadDB uidU =
      .ok (⟨[(empE1, empE1)], [], [⟨uidV, fileF, 0, 0, 0⟩], []⟩, 0) ∧
    ((DBState.mk [(empE1, empE1)] [] [⟨uidV, fileF, 0, 0, 0⟩] []).logs =
       twoUploadDB.logs.filter (fun row => !(row.uploadId = some uidU)) ∧
     ((deleteStage1 twoUploadDB uidU).logs.filter
        (fun r => r.uploadId = some uidU)).length = 0 ∧
     (∀ k ∈ affectedPairs twoUploadDB uidU,
        lookupDaily (⟨[(empE1, empE1)], [], [⟨uidV, fileF, 0, 0, 0⟩], []⟩ : DBState)
            k.1 k.2 =
          (if dayLogs (DBState.mk [(empE1, empE1)] [] [⟨uidV, fileF, 0, 0, 0⟩] []).logs
               k.1 k.2 ≠ [] then
             some ⟨k.1, k.2,
               rebuildPunchesStr (dayLogs (DBState.mk [(empE1, empE1)] []
                 [⟨uidV, fileF, 0, 0, 0⟩] []).logs k.1 k.2),
               rebuildUploadIdsStr (dayLogs (DBState.mk [(empE1, empE1)] []
                 [⟨uidV, fileF, 0, 0, 0⟩] []).logs k.1 k.2)⟩
           else none)) ∧
     0 = (((affectedPairs twoUploadDB uidU).foldl reconcileDayDelete
         (deleteStage1 twoUploadDB uidU)).daily.filter
           (fun r => containsSeq uidU r.uploadIds)).length) := by
  have hids : ∀ r ∈ twoUploadDB.logs, ∀ v ∈ r.uploadId, ∀ c ∈ v, c ≠ 44 := by
    intro r hr v hv c hc
    rcases List.mem_singleton.mp hr with rfl
    injection hv with hv'
    subst hv'
    rcases List.mem_singleton.mp hc with rfl
    decide
  have h : deleteUpload twoUploadDB uidU =
      .ok (⟨[(empE1, empE1)], [], [⟨uidV, fileF, 0, 0, 0⟩], []⟩, 0) := rfl
  exact ⟨hids, h, C4_delete_upload_reconciliation twoUploadDB uidU _ 0 hids h⟩

theorem insertLogOrIgnore_logs_append (st : DBState) (e d t : JStr) (u : Option JStr) :
    ∃ ext, (insertLogOrIgnore st e d t u).1.logs = st.logs ++ ext := by
  unfold insertLogOrIgnore
  split_ifs
  · exact ⟨[], by simp⟩
  · exact ⟨[⟨e, d, t, u⟩], rfl⟩

theorem insertLogs_logs_append (e d u : JStr) :
    ∀ (ts : List JStr) (st : DBState),
      ∃ ext, (insertLogs e d u st ts).1.logs = st.logs ++ ext
  | [], st => ⟨[], by simp [insertLogs]⟩
  | t :: ts, st => by
    simp only [insertLogs]
    obtain ⟨e2, he2⟩ :=
      insertLogs_logs_append e d u ts (insertLogOrIgnore st e d t (some u)).1
    obtain ⟨e1, he1⟩ := insertLogOrIgnore_logs_append st e d t (some u)
    exact ⟨e1 ++ e2, by rw [he2, he1, List.append_assoc]⟩

theorem hasLog_append_left (logs ext : List LogRow) (e d t : JStr)
    (h : hasLog logs e d t = true) : hasLog (logs ++ ext) e d t = true := by
  unfold hasLog at h ⊢
  rw [List.any_append, h]
  rfl

theorem insertLogs_hasLog (e d u : JStr) :
    ∀ (ts : List JStr) (st : DBState) (t : JStr), t ∈ ts →
      hasLog (insertLogs e d u st ts).1.logs e d t = true
  | [], _, t, ht => by simp at ht
  | t0 :: ts, st, t, ht => by
    simp only [insertLogs]
    rcases List.mem_cons.mp ht with rfl | hmem
    · have h1 : hasLog (insertLogOrIgnore st e d t (some u)).1.logs e d t = true := by
        unfold insertLogOrIgnore
        split_ifs with hh
        · exact hh
        · unfold hasLog
          rw [List.any_append]
          have : ([(⟨e, d, t, some u⟩ : LogRow)].any
              (fun r => r.empId = e && r.date = d && r.time = t)) = true := by
            simp
          rw [this]
          simp
      obtain ⟨ext, hext⟩ :=
        insertLogs_logs_append e d u ts (insertLogOrIgnore st e d t (some u)).1
      rw [hext]
      exact hasLog_append_left _ _ _ _ _ h1
    · exact insertLogs_hasLog e d u ts _ t hmem

theorem dayLogs_ne_nil_iff (logs : List LogRow) (e d : JStr) :
    dayLogs logs e d ≠ [] ↔ logs.filter (fun r => r.empId = e && r.date = d) ≠ [] := by
  constructor
  · intro h hf
    apply h
    unfold dayLogs
    rw [hf]
    rfl
  · intro h
    exact sortLogsByTime_ne_nil _ h

theorem filter_ne_nil_append {α : Type} (l ext : List α) (p : α → Bool)
    (h : l.filter p ≠ []) : (l ++ ext).filter p ≠ [] := by
  rw [List.filter_append]
  intro hq
  exact h (List.append_eq_nil.mp hq).1

theorem filter_ne_nil_of_hasLog (logs : List LogRow) (e d t : JStr)
    (h : hasLog logs e d t = true) :
    logs.filter (fun r => r.empId = e && r.date = d) ≠ [] := by
  unfold hasLog at h
  obtain ⟨row, hmem, hp⟩ := List.any_eq_true.mp h
  have hp' : (decide (row.empId = e) && decide (row.date = d)) = true := by
    have := (Bool.and_eq_true _ _ |>.mp hp).1
    exact this
  exact List.ne_nil_of_mem (List.mem_filter.mpr ⟨hmem, hp'⟩)

theorem mem_addAffected (l : List (JStr × JStr)) (x k : JStr × JStr)
    (h : k ∈ addAffected l x) : k ∈ l ∨ k = x := by
  unfold addAffected at h
  split_ifs at h with hx
  · exact Or.inl h
  · rcases List.mem_append.mp h with hl | hr
    · exact Or.inl hl
    · right
      simpa using hr

theorem addAffected_nodup (l : List (JStr × JStr)) (x : JStr × JStr)
    (h : l.Nodup) : (addAffected l x).Nodup := by
  unfold addAffected
  split_ifs with hx
  · exact h
  · rw [← List.concat_eq_append]
    exact List.Nodup.concat hx h

theorem processRow_inv (u : JStr) (acc : IngestAcc) (r : CsvRow)
    (hinv : ∀ k ∈ acc.affected, dayLogs acc.st.logs k.1 k.2 ≠ []) :
    ∀ k ∈ (processRow u acc r).affected,
      dayLogs (processRow u acc r).st.logs k.1 k.2 ≠ [] := by
  unfold processRow
  rcases hid : validateEmployeeId r.userId with _ | empId
  · exact hinv
  · rcases hdt : r.date.bind normalizeDate with _ | date
    · exact hinv
    · dsimp only
      by_cases hent : punchEntries r.punchRecords = []
      · rw [if_neg (by simp [hent])]
        intro k hk
        rw [insertEmployeeOrIgnore_logs]
        exact hinv k hk
      · rw [if_pos hent]
        have hkey : ∀ k, k ∈ addAffected acc.affected (empId, date) →
            dayLogs (insertLogs empId date u
              (insertEmployeeOrIgnore acc.st empId (employeeNameLit ++ empId))
              (punchEntries r.punchRecords)).1.logs k.1 k.2 ≠ [] := by
          intro k hk
          obtain ⟨ext, hext⟩ := insertLogs_logs_append empId date u
            (punchEntries r.punchRecords)
            (insertEmployeeOrIgnore acc.st empId (employeeNameLit ++ empId))
          rcases mem_addAffected _ _ _ hk with hmem | rfl
          · rw [dayLogs_ne_nil_iff, hext, insertEmployeeOrIgnore_logs]
            exact filter_ne_nil_append _ _ _
              ((dayLogs_ne_nil_iff _ _ _).mp (hinv k hmem))
          · obtain ⟨t0, ht0⟩ := List.exists_mem_of_ne_nil _ hent
            rw [dayLogs_ne_nil_iff]
            exact filter_ne_nil_of_hasLog _ _ _ t0
              (insertLogs_hasLog empId date u _ _ t0 ht0)
        split_ifs with hpos
        · exact hkey
        · exact hkey

theorem foldl_processRow_inv (u : JStr) :
    ∀ (rows : List CsvRow) (acc : IngestAcc),
      (∀ k ∈ acc.affected, dayLogs acc.st.logs k.1 k.2 ≠ []) →
      ∀ k ∈ (rows.foldl (processRow u) acc).affected,
        dayLogs (rows.foldl (processRow u) acc).st.logs k.1 k.2 ≠ []
  | [], _, h => h
  | r :: rows, acc, h => by
    simp only [List.foldl_cons]
    exact foldl_processRow_inv u rows _ (processRow_inv u acc r h)

theorem ingestTxn1_inv (st : DBState) (u f : JStr) (rows : List CsvRow) :
    ∀ k ∈ (ingestTxn1 st u f rows).affected,
      dayLogs (ingestTxn1 st u f rows).st.logs k.1 k.2 ≠ [] := by
  unfold ingestTxn1
  exact foldl_processRow_inv u rows _ (by intro k hk; simp at hk)

theorem processRow_affected_nodup (u : JStr) (acc : IngestAcc) (r : CsvRow)
    (h : acc.affected.Nodup) : (processRow u acc r).affected.Nodup := by
  unfold processRow
  rcases validateEmployeeId r.userId with _ | empId
  · exact h
  · rcases r.date.bind normalizeDate with _ | date
    · exact h
    · dsimp only
      split_ifs
      · exact addAffected_nodup _ _ h
      · exact addAffected_nodup _ _ h
      · exact h

theorem foldl_processRow_nodup (u : JStr) :
    ∀ (rows : List CsvRow) (acc : IngestAcc), acc.affected.Nodup →
      (rows.foldl (processRow u) acc).affected.Nodup
  | [], _, h => h
  | r :: rows, acc, h => by
    simp only [List.foldl_cons]
    exact foldl_processRow_nodup u rows _ (processRow_affected_nodup u acc r h)

theorem ingestTxn1_affected_nodup (st : DBState) (u f : JStr) (rows : List CsvRow) :
    (ingestTxn1 st u f rows).affected.Nodup := by
  unfold ingestTxn1
  exact foldl_processRow_nodup u rows _ (by simp)

/-- C3 (amended): `ingestSingleFile` commits the raw-punch writes and
the `daily_attendance` rebuilds in two consecutive transactions, not in
one; after the second transaction commits, every employee-day affected
by the batch satisfies the cache invariant (its cache row equals the
rebuild from all punches then stored). -/
theorem C3_ingest_final_cache_consistency (st : DBState) (uploadId filename : JStr)
    (rows : List CsvRow) :
    ∀ k ∈ (ingestTxn1 st uploadId filename rows).affected,
      dayCacheConsistent (ingestSingleFile st uploadId filename rows).1 k.1 k.2 := by
  intro k hk
  by_cases hrows : rows = []
  · subst hrows
    simp only [ingestTxn1, List.foldl_nil] at hk
    simp at hk
  · unfold ingestSingleFile
    rw [if_neg hrows]
    dsimp only
    unfold ingestTxn2 dayCacheConsistent
    have hinv := ingestTxn1_inv st uploadId filename rows k hk
    have hnodup := ingestTxn1_affected_nodup st uploadId filename rows
    have hspec := foldl_lookup_spec rebuildDayIngest
      (fun logs k => some ⟨k.1, k.2, rebuildPunchesStr (dayLogs logs k.1 k.2),
        rebuildUploadIdsStr (dayLogs logs k.1 k.2)⟩)
      (fun logs k => dayLogs logs k.1 k.2 ≠ [])
      rebuildDayIngest_logs rebuildDayIngest_self rebuildDayIngest_frame
      (ingestTxn1 st uploadId filename rows).affected
      (ingestTxn1 st uploadId filename rows).st k hnodup hk hinv
    have hfold : (((ingestTxn1 st uploadId filename rows).affected.foldl
        rebuildDayIngest (ingestTxn1 st uploadId filename rows).st)).logs =
        (ingestTxn1 st uploadId filename rows).st.logs :=
      foldl_logs_invariant _ rebuildDayIngest_logs _ _
    show lookupDaily _ k.1 k.2 = _
    rw [show ∀ (s : DBState) (i sk em : Nat), lookupDaily
        (updateUploadCounts s uploadId i sk em) k.1 k.2 = lookupDaily s k.1 k.2
      from fun s i sk em => rfl]
    rw [hspec]
    rw [show ∀ (s : DBState) (i sk em : Nat),
        (updateUploadCounts s uploadId i sk em).logs = s.logs
      from fun s i sk em => rfl]
    rw [hfold]
    rw [if_pos hinv]

/-- C3 counterexample: ingestion of the one-row batch
`E1, 2025-01-06, "09:00, 18:00"` into the empty store commits two
separate transactions, and in the first committed state the batch's
punch `09:00` is stored while the affected day has no cache row at all
— an observable state with punches committed but the cache not yet
rebuilt. -/
theorem C3_two_transactions_counterexample :
    ingestCommits emptyDB uidU fileF [rowE1] =
      [(ingestTxn1 emptyDB uidU fileF [rowE1]).st,
       ingestTxn2 uidU (ingestTxn1 emptyDB uidU fileF [rowE1])] ∧
    (empE1, dateJan6) ∈ (ingestTxn1 emptyDB uidU fileF [rowE1]).affected ∧
    hasLog (ingestTxn1 emptyDB uidU fileF [rowE1]).st.logs empE1 dateJan6 t0900 = true ∧
    lookupDaily (ingestTxn1 emptyDB uidU fileF [rowE1]).st empE1 dateJan6 = none := by
  refine ⟨?_, by decide, by decide, by decide⟩
  unfold ingestCommits
  rw [if_neg (by simp)]

/-- C3 witness: the amended theorem applied to the same one-row batch. -/
theorem C3_ingest_final_cache_consistency_witness :
    (empE1, dateJan6) ∈ (ingestTxn1 emptyDB uidU fileF [rowE1]).affected ∧
    dayCacheConsistent (ingestSingleFile emptyDB uidU fileF [rowE1]).1 empE1 dateJan6 := by
  have hm : ((empE1, dateJan6) : JStr × JStr) ∈
      (ingestTxn1 emptyDB uidU fileF [rowE1]).affected := by decide
  exact ⟨hm, C3_ingest_final_cache_consistency emptyDB uidU fileF [rowE1]
    (empE1, dateJan6) hm⟩

/-! ## C7: the daily-report break computation -/

theorem splitCS_joinCS : ∀ (l : List JStr), (∀ s ∈ l, ∀ c ∈ s, c ≠ 44) →
    l ≠ [] → splitCS (joinCS l) = l
  | [], _, hne => absurd rfl hne
  | [a], h, _ => splitCS_no44 a (h a (by simp))
  | a :: b :: r, h, _ => by
    have ih := splitCS_joinCS (b :: r) (fun s hs => h s (List.mem_cons_of_mem _ hs))
      (by simp)
    have hj : joinCS (a :: b :: r) = a ++ 44 :: 32 :: joinCS (b :: r) := by
      simp [joinCS, joinSep, List.append_assoc]
    rw [hj, splitCS_append a _ (h a (by simp)), ih]

theorem jsSort_of_sorted : ∀ (l : List JStr),
    List.Chain' (fun a b => jsLt b a = false) l → jsSort l = l
  | [], _ => rfl
  | [_], _ => rfl
  | x :: y :: r, h => by
    have hh : jsLt y x = false := (List.chain'_cons.mp h).1
    have ih := jsSort_of_sorted (y :: r) (List.chain'_cons.mp h).2
    show insertSorted x (jsSort (y :: r)) = x :: y :: r
    rw [ih]
    simp [insertSorted, hh]

theorem renders_sorted (ts : List JTime) (hval : ∀ t ∈ ts, t.Valid)
    (hsort : List.Pairwise (fun a b => a.instant < b.instant) ts) :
    List.Chain' (fun a b : JStr => jsLt b a = false) (ts.map JTime.render) := by
  have hp : List.Pairwise (fun a b : JTime => jsLt b.render a.render = false) ts :=
    hsort.imp_of_mem (fun ha hb hr =>
      jsLt_render_false_of_instant_lt _ _ (hval _ ha) (hval _ hb) hr)
  exact (List.pairwise_map.mpr hp).chain'

theorem pipeline_renders (ts : List JTime) (hval : ∀ t ∈ ts, t.Valid)
    (hsort : List.Pairwise (fun a b => a.instant < b.instant) ts) (hne : ts ≠ []) :
    jsSort ((splitCS (joinCS (ts.map JTime.render))).map jsTrim) = ts.map JTime.render := by
  rw [splitCS_joinCS _ (fun s hs c hc => by
        obtain ⟨t, ht, rfl⟩ := List.mem_map.mp hs
        have := mem_render_bounds t (hval t ht) c hc
        omega)
      (by simpa using hne)]
  have hmap : (ts.map JTime.render).map jsTrim = ts.map JTime.render := by
    rw [List.map_map]
    exact List.map_congr_left (fun t ht => jsTrim_render t (hval t ht))
  rw [hmap]
  exact jsSort_of_sorted _ (renders_sorted ts hval hsort)

theorem timeToMinutesDR_parts (t p0 p1 : JStr) (rest : List JStr) (h m : Nat)
    (ht : t ≠ []) (hsplit : splitColon t = p0 :: p1 :: rest)
    (hp0 : jsNumberNat p0 = some h) (hp1 : jsNumberNat p1 = some m) :
    timeToMinutesDR t = some (h * 60 + m) := by
  unfold timeToMinutesDR
  rw [if_neg ht, hsplit]
  show (match jsNumberNat p0, jsNumberNat p1 with
    | some a, some b => some (a * 60 + b)
    | _, _ => none) = some (h * 60 + m)
  rw [hp0, hp1]

theorem timeToMinutesDR_render (T : JTime) (hT : T.Valid) :
    timeToMinutesDR T.render = some T.mins := by
  have h1 := hT.1
  have h2 := hT.2.1
  rcases hss : T.ss with _ | s
  · exact timeToMinutesDR_parts _ _ _ _ T.hh T.mm (render_ne_nil T)
      (splitColon_render_none T hT hss)
      (jsNumberNat_twoDigit _ (by omega)) (jsNumberNat_twoDigit _ (by omega))
  · exact timeToMinutesDR_parts _ _ _ _ T.hh T.mm (render_ne_nil T)
      (splitColon_render_some T hT s hss)
      (jsNumberNat_twoDigit _ (by omega)) (jsNumberNat_twoDigit _ (by omega))

theorem pairUp_map {α β : Type} (f : α → β) : ∀ (l : List α),
    pairUp (l.map f) = (pairUp l).map (Prod.map f f)
  | [] => rfl
  | [_] => rfl
  | a :: b :: r => by
    show (f a, f b) :: pairUp (r.map f) = ((a, b) :: pairUp r).map (Prod.map f f)
    rw [List.map_cons, pairUp_map f r]
    rfl

theorem pairUp_mem {α : Type} : ∀ (l : List α) (p : α × α),
    p ∈ pairUp l → p.1 ∈ l ∧ p.2 ∈ l
  | [], p, hp => absurd hp (List.not_mem_nil p)
  | [_], p, hp => absurd hp (List.not_mem_nil p)
  | a :: b :: r, p, hp => by
    rcases List.mem_cons.mp hp with h | h
    · subst h
      exact ⟨List.mem_cons_self _ _, List.mem_cons_of_mem _ (List.mem_cons_self _ _)⟩
    · have hr := pairUp_mem r p h
      exact ⟨List.mem_cons_of_mem _ (List.mem_cons_of_mem _ hr.1),
             List.mem_cons_of_mem _ (List.mem_cons_of_mem _ hr.2)⟩

theorem breakMinsLoop_renders (ts : List JTime) (hval : ∀ t ∈ ts, t.Valid) :
    breakMinsLoop (ts.map JTime.render) = breakMinsAmended ts := by
  unfold breakMinsLoop breakMinsAmended
  rw [← List.map_drop, pairUp_map, List.foldl_map]
  apply List.foldl_ext
  intro acc p hp
  have hmem := pairUp_mem _ p hp
  have hv1 : p.1.Valid := hval _ ((List.drop_sublist 1 ts).subset hmem.1)
  have hv2 : p.2.Valid := hval _ ((List.drop_sublist 1 ts).subset hmem.2)
  show (match timeToMinutesDR p.1.render, timeToMinutesDR p.2.render with
    | some ov, some iv =>
      if ov ≠ 0 ∧ iv ≠ 0 ∧ ov < iv then acc + ((iv : Int) - (ov : Int)) else acc
    | _, _ => acc) =
    (if p.1.mins ≠ 0 ∧ p.1.mins < p.2.mins then
      acc + ((p.2.mins : Int) - (p.1.mins : Int)) else acc)
  rw [timeToMinutesDR_render p.1 hv1, timeToMinutesDR_render p.2 hv2]
  show (if p.1.mins ≠ 0 ∧ p.2.mins ≠ 0 ∧ p.1.mins < p.2.mins then
      acc + ((p.2.mins : Int) - (p.1.mins : Int)) else acc) = _
  by_cases hc : p.1.mins ≠ 0 ∧ p.1.mins < p.2.mins
  · rw [if_pos ⟨hc.1, by omega, hc.2⟩, if_pos hc]
  · rw [if_neg (fun h => hc ⟨h.1, h.2.2⟩), if_neg hc]

theorem pairwise_mins (ts : List JTime) (hval : ∀ t ∈ ts, t.Valid)
    (hsort : List.Pairwise (fun a b => a.instant < b.instant) ts) :
    List.Pairwise (fun a b : JTime => a.mins ≤ b.mins) ts :=
  hsort.imp_of_mem (fun ha hb hr =>
    mins_le_of_instant_lt _ _ (hval _ ha) (hval _ hb) hr)

theorem head_mins_le (t0 : JTime) (rest : List JTime)
    (hp : List.Pairwise (fun a b : JTime => a.mins ≤ b.mins) (t0 :: rest))
    (a : JTime) (ha : a ∈ t0 :: rest) : t0.mins ≤ a.mins := by
  rcases List.mem_cons.mp ha with h | h
  · subst h
    exact le_refl _
  · exact (List.pairwise_cons.mp hp).1 a h

theorem mins_le_getLast : ∀ (l : List JTime) (h : l ≠ [])
    (hp : List.Pairwise (fun a b : JTime => a.mins ≤ b.mins) l)
    (a : JTime), a ∈ l → a.mins ≤ (l.getLast h).mins
  | [], h, _, _, _ => absurd rfl h
  | [t], _, _, a, ha => by
    rcases List.mem_singleton.mp ha with rfl
    exact le_refl _
  | t :: u :: r, _, hp, a, ha => by
    have hp' := List.pairwise_cons.mp hp
    rw [List.getLast_cons (List.cons_ne_nil u r)]
    rcases List.mem_cons.mp ha with h | h
    · subst h
      exact hp'.1 _ (List.getLast_mem (List.cons_ne_nil u r))
    · exact mins_le_getLast (u :: r) (List.cons_ne_nil u r) hp'.2 a h

theorem getLastD_eq_getLast {α : Type} (l : List α) (h : l ≠ []) (d : α) :
    l.getLastD d = l.getLast h := by
  rw [List.getLastD_eq_getLast?, List.getLast?_eq_getLast l h, Option.getD_some]

theorem breakMinsAmended_eq_zero (ts : List JTime)
    (hflat : ∀ a ∈ ts, ∀ b ∈ ts, ¬ a.mins < b.mins) : breakMinsAmended ts = 0 := by
  unfold breakMinsAmended
  have key : ∀ (l : List (JTime × JTime)) (acc : Int),
      (∀ p ∈ l, ¬ p.1.mins < p.2.mins) →
      List.foldl (fun acc p =>
        if p.1.mins ≠ 0 ∧ p.1.mins < p.2.mins then
          acc + ((p.2.mins : Int) - (p.1.mins : Int))
        else acc) acc l = acc := by
    intro l
    induction l with
    | nil => intro acc _; rfl
    | cons p l ih =>
      intro acc h
      simp only [List.foldl_cons]
      rw [if_neg (fun hc => h p (List.mem_cons_self p l) hc.2)]
      exact ih acc (fun q hq => h q (List.mem_cons_of_mem _ hq))
  apply key
  intro p hp
  have hmem := pairUp_mem _ p hp
  exact hflat p.1 ((List.drop_sublist 1 ts).subset hmem.1)
    p.2 ((List.drop_sublist 1 ts).subset hmem.2)

/-- C7 (amended): in `fetchDailyReport`, for a cached punches string that
is the comma-space join of valid canonical times in strictly increasing
chronological order, `breakMins` is the sum over the punch pairs at
0-indexed index pairs (1,2), (3,4), … of the positive whole-minute gaps
`in - out` — except that a pair whose OUT punch has whole-minute value 0
(any punch inside the minute 00:00) is skipped by the loop's truthiness
guard — and `workingMins = (lastOut - firstIn) - breakMins` in whole
minutes; on the spec scenario `09:00:00, 12:30:00, 13:00:00, 18:05:00`
on Wednesday 2025-01-01 the row has firstIn `09:00:00`, lastOut
`18:05:00`, workingMins 515, breakMins 30, status `FullDay`, and worked
minutes (workingMins + breakMins) 545. -/
theorem C7_daily_report_break_formula
    (eI eN : JStr) (date : CivilDate) (ts : List JTime) (hne : ts ≠ [])
    (hval : ∀ t ∈ ts, t.Valid)
    (hsort : List.Pairwise (fun a b => a.instant < b.instant) ts) :
    ((dailyReportRow eI eN (some (joinCS (ts.map JTime.render))) date).breakMins =
        breakMinsAmended ts ∧
      (dailyReportRow eI eN (some (joinCS (ts.map JTime.render))) date).workingMins =
        (((ts.getLastD ⟨0, 0, none⟩).mins : Int) - ((ts.headD ⟨0, 0, none⟩).mins : Int)) -
          breakMinsAmended ts) ∧
    (dailyReportRow empE1 empE1 (some scenarioPunches) wedDate =
        ⟨empE1, empE1, some [48, 57, 58, 48, 48, 58, 48, 48],
          some [49, 56, 58, 48, 53, 58, 48, 48], 515, 30, 4, .fullDay⟩ ∧
      (dailyReportRow empE1 empE1 (some scenarioPunches) wedDate).workingMins +
        (dailyReportRow empE1 empE1 (some scenarioPunches) wedDate).breakMins = 545) := by
  refine ⟨?_, by decide, by decide⟩
  obtain ⟨t0, rest, rfl⟩ : ∃ t0 rest, ts = t0 :: rest := by
    cases ts with
    | nil => exact absurd rfl hne
    | cons a r => exact ⟨a, r, rfl⟩
  have hjoin_ne : joinCS ((t0 :: rest).map JTime.render) ≠ [] := by
    cases rest with
    | nil => exact render_ne_nil t0
    | cons b r =>
      show JTime.render t0 ++ [44, 32] ++
        joinSep [44, 32] (JTime.render b :: List.map JTime.render r) ≠ []
      intro hc
      exact render_ne_nil t0 (List.append_eq_nil.mp (List.append_eq_nil.mp hc).1).1
  have hpipe : jsSort ((splitCS (joinCS ((t0 :: rest).map JTime.render))).map jsTrim)
      = JTime.render t0 :: rest.map JTime.render :=
    pipeline_renders (t0 :: rest) hval hsort hne
  have hgetlast : ∀ (h2 : JTime.render t0 :: rest.map JTime.render ≠ []),
      (JTime.render t0 :: rest.map JTime.render).getLast h2
        = ((t0 :: rest).getLast (List.cons_ne_nil t0 rest)).render :=
    fun h2 => List.getLast_map JTime.render (t0 :: rest) h2
  have hLmem : (t0 :: rest).getLast (List.cons_ne_nil t0 rest) ∈ t0 :: rest :=
    List.getLast_mem (List.cons_ne_nil t0 rest)
  simp only [dailyReportRow]
  rw [if_neg hjoin_ne, hpipe]
  simp only [List.getLast_cons, hgetlast]
  rw [timeToMinutesDR_render t0 (hval t0 (List.mem_cons_self t0 rest)),
    timeToMinutesDR_render _ (hval _ hLmem)]
  dsimp only
  by_cases hcmp : t0.mins < ((t0 :: rest).getLast (List.cons_ne_nil t0 rest)).mins
  · rw [if_pos hcmp]
    refine ⟨breakMinsLoop_renders (t0 :: rest) hval, ?_⟩
    rw [getLastD_eq_getLast (t0 :: rest) (List.cons_ne_nil t0 rest),
      show JTime.render t0 :: rest.map JTime.render = (t0 :: rest).map JTime.render from rfl,
      breakMinsLoop_renders (t0 :: rest) hval]
    rfl
  · rw [if_neg hcmp]
    have hpm := pairwise_mins (t0 :: rest) hval hsort
    have hall : ∀ x ∈ t0 :: rest, JTime.mins x = t0.mins := fun x hx =>
      Nat.le_antisymm
        (Nat.le_trans (mins_le_getLast (t0 :: rest) (List.cons_ne_nil t0 rest) hpm x hx)
          (Nat.not_lt.mp hcmp))
        (head_mins_le t0 rest hpm x hx)
    have hflat : ∀ a ∈ t0 :: rest, ∀ b ∈ t0 :: rest, ¬ a.mins < b.mins := by
      intro a ha b hb
      rw [hall a ha, hall b hb]
      exact lt_irrefl _
    have hz := breakMinsAmended_eq_zero (t0 :: rest) hflat
    refine ⟨by rw [hz], ?_⟩
    rw [hz, getLastD_eq_getLast (t0 :: rest) (List.cons_ne_nil t0 rest),
      hall _ hLmem]
    show (0 : Int) = ((t0.mins : Int) - ((t0 :: rest).headD ⟨0, 0, none⟩).mins) - 0
    show (0 : Int) = ((t0.mins : Int) - (t0.mins : Int)) - 0
    omega

/-- C7 counterexample: for the punches `00:00, 00:00:30, 06:00, 07:00`
on Wednesday 2025-01-01, the claimed break formula (sum of positive
gaps over the pairs at indices (1,2), (3,4), …) yields 360 for the pair
`(00:00:30, 06:00)`, but the report's break loop skips it — the OUT
value 0 is falsy in the guard `if (outTime && inTime && ...)` — so the
row has breakMins 0, workingMins 420 and status HalfDay instead of the
claimed 360/60/Absent. -/
theorem C7_break_pair_counterexample :
    (dailyReportRow empE1 empE1 (some midnightPunches) wedDate).breakMins = 0 ∧
    breakMinutesSpec (jsSort ((splitCS midnightPunches).map jsTrim)) = 360 ∧
    (dailyReportRow empE1 empE1 (some midnightPunches) wedDate).workingMins = 420 ∧
    (dailyReportRow empE1 empE1 (some midnightPunches) wedDate).status =
      DailyStatus.halfDay := by
  refine ⟨by decide, by decide, by decide, by decide⟩

/-- C7 witness: the amended theorem applied to the two-punch day
`09:00, 18:30` on Wednesday 2025-01-01. -/
theorem C7_daily_report_break_formula_witness :
    ([(⟨9, 0, none⟩ : JTime), ⟨18, 30, none⟩] ≠ []) ∧
    (∀ t ∈ [(⟨9, 0, none⟩ : JTime), ⟨18, 30, none⟩], t.Valid) ∧
    List.Pairwise (fun a b => a.instant < b.instant)
      [(⟨9, 0, none⟩ : JTime), ⟨18, 30, none⟩] ∧
    (((dailyReportRow empE1 empE1
          (some (joinCS (([(⟨9, 0, none⟩ : JTime), ⟨18, 30, none⟩]).map JTime.render)))
          wedDate).breakMins =
        breakMinsAmended [(⟨9, 0, none⟩ : JTime), ⟨18, 30, none⟩] ∧
      (dailyReportRow empE1 empE1
          (some (joinCS (([(⟨9, 0, none⟩ : JTime), ⟨18, 30, none⟩]).map JTime.render)))
          wedDate).workingMins =
        ((([(⟨9, 0, none⟩ : JTime), ⟨18, 30, none⟩].getLastD ⟨0, 0, none⟩).mins : Int) -
            (([(⟨9, 0, none⟩ : JTime), ⟨18, 30, none⟩].headD ⟨0, 0, none⟩).mins : Int)) -
          breakMinsAmended [(⟨9, 0, none⟩ : JTime), ⟨18, 30, none⟩]) ∧
    (dailyReportRow empE1 empE1 (some scenarioPunches) wedDate =
        ⟨empE1, empE1, some [48, 57, 58, 48, 48, 58, 48, 48],
          some [49, 56, 58, 48, 53, 58, 48, 48], 515, 30, 4, .fullDay⟩ ∧
      (dailyReportRow empE1 empE1 (some scenarioPunches) wedDate).workingMins +
        (dailyReportRow empE1 empE1 (some scenarioPunches) wedDate).breakMins = 545)) := by
  have hne : ([(⟨9, 0, none⟩ : JTime), ⟨18, 30, none⟩] : List JTime) ≠ [] := by decide
  have hval : ∀ t ∈ ([(⟨9, 0, none⟩ : JTime), ⟨18, 30, none⟩] : List JTime), t.Valid := by
    intro t ht
    rcases List.mem_cons.mp ht with rfl | ht
    · exact ⟨by decide, by decide, by intro s hs; simp at hs⟩
    rcases List.mem_cons.mp ht with rfl | ht
    · exact ⟨by decide, by decide, by intro s hs; simp at hs⟩
    simp at ht
  have hsort : List.Pairwise (fun a b => a.instant < b.instant)
      ([(⟨9, 0, none⟩ : JTime), ⟨18, 30, none⟩] : List JTime) := by
    refine List.pairwise_cons.mpr ⟨?_, List.pairwise_singleton _ _⟩
    intro b hb
    rcases List.mem_singleton.mp hb with rfl
    decide
  exact ⟨hne, hval, hsort,
    C7_daily_report_break_formula empE1 empE1 wedDate _ hne hval hsort⟩

end Attendance
